import Mathlib

/-!
Verification development for the openapi-fixer pipeline.

The pipeline edits an OpenAPI-style JSON document (a tree of mappings,
sequences and scalars) in four phases: hydration (fragment injection and
placeholder translation), schema renaming with reference rewriting,
semantic path corrections, and a final idempotent rule engine.

The document model below mirrors Python's JSON values: mappings are
insertion-ordered association lists with unique keys (as produced by
`json.load`), sequences are lists, scalars are strings, numbers, booleans
and null.  Python dict operations are modelled on association lists:
lookup and assignment act on the first occurrence of a key (for
well-formed documents keys are unique, so this coincides with Python).
Python exceptions (TypeError on operations applied to a value of the
wrong shape, KeyError) are modelled by `Option`/explicit error results.
-/

/-- One node of the JSON document tree. -/
inductive Node where
  | str  : String → Node
  | num  : Int → Node
  | bool : Bool → Node
  | null : Node
  | obj  : List (String × Node) → Node
  | arr  : List Node → Node
deriving Repr

mutual

/-- Decidable structural equality of nodes (Python `==` on JSON values). -/
def Node.decEq : (a b : Node) → Decidable (a = b)
  | .str a, .str b =>
    match String.decEq a b with
    | isTrue h => isTrue (by rw [h])
    | isFalse h => isFalse (by intro he; injection he; contradiction)
  | .num a, .num b =>
    match Int.decEq a b with
    | isTrue h => isTrue (by rw [h])
    | isFalse h => isFalse (by intro he; injection he; contradiction)
  | .bool a, .bool b =>
    match Bool.decEq a b with
    | isTrue h => isTrue (by rw [h])
    | isFalse h => isFalse (by intro he; injection he; contradiction)
  | .null, .null => isTrue rfl
  | .obj a, .obj b =>
    match Node.decEqFields a b with
    | isTrue h => isTrue (by rw [h])
    | isFalse h => isFalse (by intro he; injection he; contradiction)
  | .arr a, .arr b =>
    match Node.decEqElems a b with
    | isTrue h => isTrue (by rw [h])
    | isFalse h => isFalse (by intro he; injection he; contradiction)
  | .str _, .num _ => isFalse (fun h => Node.noConfusion h)
  | .str _, .bool _ => isFalse (fun h => Node.noConfusion h)
  | .str _, .null => isFalse (fun h => Node.noConfusion h)
  | .str _, .obj _ => isFalse (fun h => Node.noConfusion h)
  | .str _, .arr _ => isFalse (fun h => Node.noConfusion h)
  | .num _, .str _ => isFalse (fun h => Node.noConfusion h)
  | .num _, .bool _ => isFalse (fun h => Node.noConfusion h)
  | .num _, .null => isFalse (fun h => Node.noConfusion h)
  | .num _, .obj _ => isFalse (fun h => Node.noConfusion h)
  | .num _, .arr _ => isFalse (fun h => Node.noConfusion h)
  | .bool _, .str _ => isFalse (fun h => Node.noConfusion h)
  | .bool _, .num _ => isFalse (fun h => Node.noConfusion h)
  | .bool _, .null => isFalse (fun h => Node.noConfusion h)
  | .bool _, .obj _ => isFalse (fun h => Node.noConfusion h)
  | .bool _, .arr _ => isFalse (fun h => Node.noConfusion h)
  | .null, .str _ => isFalse (fun h => Node.noConfusion h)
  | .null, .num _ => isFalse (fun h => Node.noConfusion h)
  | .null, .bool _ => isFalse (fun h => Node.noConfusion h)
  | .null, .obj _ => isFalse (fun h => Node.noConfusion h)
  | .null, .arr _ => isFalse (fun h => Node.noConfusion h)
  | .obj _, .str _ => isFalse (fun h => Node.noConfusion h)
  | .obj _, .num _ => isFalse (fun h => Node.noConfusion h)
  | .obj _, .bool _ => isFalse (fun h => Node.noConfusion h)
  | .obj _, .null => isFalse (fun h => Node.noConfusion h)
  | .obj _, .arr _ => isFalse (fun h => Node.noConfusion h)
  | .arr _, .str _ => isFalse (fun h => Node.noConfusion h)
  | .arr _, .num _ => isFalse (fun h => Node.noConfusion h)
  | .arr _, .bool _ => isFalse (fun h => Node.noConfusion h)
  | .arr _, .null => isFalse (fun h => Node.noConfusion h)
  | .arr _, .obj _ => isFalse (fun h => Node.noConfusion h)

/-- Decidable equality of mapping entry lists. -/
def Node.decEqFields : (a b : List (String × Node)) → Decidable (a = b)
  | [], [] => isTrue rfl
  | [], _ :: _ => isFalse (fun h => List.noConfusion h)
  | _ :: _, [] => isFalse (fun h => List.noConfusion h)
  | (k, v) :: r, (k', v') :: r' =>
    match String.decEq k k', Node.decEq v v', Node.decEqFields r r' with
    | isTrue h1, isTrue h2, isTrue h3 => isTrue (by rw [h1, h2, h3])
    | isFalse h1, _, _ =>
      isFalse (by intro he; injection he with he1 he2; injection he1; contradiction)
    | _, isFalse h2, _ =>
      isFalse (by intro he; injection he with he1 he2; injection he1; contradiction)
    | _, _, isFalse h3 =>
      isFalse (by intro he; injection he with he1 he2; contradiction)

/-- Decidable equality of sequence element lists. -/
def Node.decEqElems : (a b : List Node) → Decidable (a = b)
  | [], [] => isTrue rfl
  | [], _ :: _ => isFalse (fun h => List.noConfusion h)
  | _ :: _, [] => isFalse (fun h => List.noConfusion h)
  | v :: r, v' :: r' =>
    match Node.decEq v v', Node.decEqElems r r' with
    | isTrue h2, isTrue h3 => isTrue (by rw [h2, h3])
    | isFalse h2, _ =>
      isFalse (by intro he; injection he with he1 he2; contradiction)
    | _, isFalse h3 =>
      isFalse (by intro he; injection he with he1 he2; contradiction)

end

instance : DecidableEq Node := Node.decEq

/-- Python `x in l` for a list of JSON values (structural equality). -/
def listHas (l : List Node) (x : Node) : Bool :=
  l.any (fun y => decide (y = x))

/-- Python `d[k]` / `d.get(k)`: the value bound to the first occurrence of
key `k` in a mapping's entry list. -/
def dictGet (kvs : List (String × Node)) (k : String) : Option Node :=
  match kvs with
  | [] => none
  | (k', v) :: rest => if k' = k then some v else dictGet rest k

/-- Python `k in d`. -/
def hasKey (kvs : List (String × Node)) (k : String) : Bool :=
  (dictGet kvs k).isSome

/-- Python `d[k] = v`: replace the value at the first occurrence of `k`,
or append a new entry when the key is absent (insertion order semantics
of Python dicts). -/
def dictSet (kvs : List (String × Node)) (k : String) (v : Node) :
    List (String × Node) :=
  match kvs with
  | [] => [(k, v)]
  | (k', v') :: rest =>
    if k' = k then (k, v) :: rest else (k', v') :: dictSet rest k v

/-- Python `del d[k]` (for well-formed documents the key occurs once, so
removing every occurrence coincides with Python). -/
def dictDel (kvs : List (String × Node)) (k : String) : List (String × Node) :=
  kvs.filter (fun kv => kv.1 ≠ k)

/-- The keys of a mapping, in order. -/
def dictKeys (kvs : List (String × Node)) : List String :=
  kvs.map Prod.fst

/-- Python `s.startswith(p)`. -/
def strStartsWith (s p : String) : Bool :=
  p.data.isPrefixOf s.data

/-- Does `pat` occur as a contiguous sublist of `s`?  (`pat in s` on
Python strings, for nonempty `pat`.) -/
def occursIn (pat : List Char) : List Char → Bool
  | [] => pat.isEmpty
  | c :: rest => pat.isPrefixOf (c :: rest) || occursIn pat rest

/-- Python `pat in s` for strings. -/
def strContains (s pat : String) : Bool :=
  occursIn pat.data s.data

/-- Auxiliary for `strReplace`: Python `s.replace("", repl)` inserts the
replacement at every character boundary. -/
def replaceEmptyPat (repl : List Char) : List Char → List Char
  | [] => repl
  | c :: rest => repl ++ c :: replaceEmptyPat repl rest

/-- Auxiliary for `strReplace`: replace every (leftmost-first,
non-overlapping) occurrence of the nonempty pattern `p :: ps`, driven by
a character budget (every step consumes at least one character, so a
budget of the string's length is never exhausted). -/
def replaceCoreAux (p : Char) (ps repl : List Char) : Nat → List Char → List Char
  | 0, l => l
  | _, [] => []
  | fuel + 1, c :: rest =>
    if (p :: ps).isPrefixOf (c :: rest) then
      repl ++ replaceCoreAux p ps repl fuel (rest.drop ps.length)
    else
      c :: replaceCoreAux p ps repl fuel rest

/-- Replace every occurrence of the nonempty pattern `p :: ps`. -/
def replaceCore (p : Char) (ps repl : List Char) (s : List Char) : List Char :=
  replaceCoreAux p ps repl s.length s

/-- Python `s.replace(pat, repl)`. -/
def strReplace (s pat repl : String) : String :=
  match pat.data with
  | [] => ⟨replaceEmptyPat repl.data s.data⟩
  | p :: ps => ⟨replaceCore p ps repl.data s.data⟩

/-- Python `' ' in name`. -/
def hasSpace (name : String) : Bool :=
  occursIn [' '] name.data

/-- Python `s.split(sep)` for a single-character separator. -/
def splitCharAux (sep : Char) : List Char → List Char → List String
  | [], acc => [⟨acc.reverse⟩]
  | c :: rest, acc =>
    if c = sep then ⟨acc.reverse⟩ :: splitCharAux sep rest []
    else splitCharAux sep rest (c :: acc)

/-- Python `s.split(sep)` for a one-character separator string. -/
def strSplitChar (s : String) (sep : Char) : List String :=
  splitCharAux sep s.data []

/-- Python `s.lower()` (ASCII case folding, which is all the pipeline's
method names need). -/
def strToLower (s : String) : String :=
  ⟨s.data.map Char.toLower⟩

/-! ### Script 2: schema renaming and reference rewriting (`SchemaRenamer`) -/

/-- The container pointer prefix `#/components/schemas/` used by the
renamer, rewriter and validator. -/
def schemasPfx : String := "#/components/schemas/"

/-- Python `value.replace("#/components/schemas/", "")` — the schema-name
extraction used by both `update_references_recursive` and
`validate_references`.  Note that `str.replace` removes every occurrence
of the pattern, not only a leading one. -/
def refTail (v : String) : String :=
  strReplace v schemasPfx ""

/-- Python `SchemaRenamer._default_normalizer`: `name.replace(' ', '')`. -/
def default_normalizer (name : String) : String :=
  strReplace name " " ""

/-- Lookup in a string-to-string mapping (Python dict of strings). -/
def lookupStr : List (String × String) → String → Option String
  | [], _ => none
  | (a, b) :: rest, k => if a = k then some b else lookupStr rest k

/-- Navigation to `doc["components"]["schemas"]` when every level is a
mapping. -/
def getComponentsSchemas (doc : Node) : Option (List (String × Node)) :=
  match doc with
  | .obj fields =>
    match dictGet fields "components" with
    | some (.obj cf) =>
      match dictGet cf "schemas" with
      | some (.obj schemas) => some schemas
      | _ => none
    | _ => none
  | _ => none

/-- The selection loop of `rename_schemas_with_spaces`: keys of the schema
registry containing a space, paired with their normalized new name. -/
def selectSchemasToRename (normalize : String → String)
    (schemas : List (String × Node)) : List (String × String) :=
  (dictKeys schemas).filterMap
    (fun k => if hasSpace k then some (k, normalize k) else none)

/-- First loop of `_check_name_collisions`: fail when two selected schemas
normalize to the same new name (`seen` accumulates the new names already
visited, newest first). -/
def checkDupNewNames : List (String × String) → List String → Option String
  | [], _ => none
  | (_, n) :: rest, seen =>
    if n ∈ seen then
      some ("Colisao de nomes detectada: multiplos schemas seriam renomeados para " ++ n)
    else checkDupNewNames rest (n :: seen)

/-- Second loop of `_check_name_collisions`: fail when a computed new name
already exists among the schemas that are not being renamed. -/
def checkUntouchedCollision (untouched : List String) :
    List (String × String) → Option String
  | [] => none
  | (_, n) :: rest =>
    if n ∈ untouched then
      some ("Colisao de nomes detectada: o nome ja existe no documento: " ++ n)
    else checkUntouchedCollision untouched rest

/-- Python `SchemaRenamer._check_name_collisions`: both collision checks,
run to completion before any mutation.  Returns `some msg` when a
collision is detected (Python raises `ValueError`). -/
def check_name_collisions (schemas : List (String × Node))
    (toRen : List (String × String)) : Option String :=
  match checkDupNewNames toRen [] with
  | some m => some m
  | none =>
    let untouched :=
      (dictKeys schemas).filter (fun k => ¬ (toRen.map Prod.fst).contains k)
    checkUntouchedCollision untouched toRen

/-- The mutation loop of `rename_schemas_with_spaces`:
`schemas[new] = schemas[old]; del schemas[old]` for each pair, in order.
Python would raise `KeyError` were a selected key absent (`none`). -/
def applyRenames : List (String × Node) → List (String × String) →
    Option (List (String × Node))
  | acc, [] => some acc
  | acc, (o, n) :: rest =>
    match dictGet acc o with
    | some v => applyRenames (dictDel (dictSet acc n v) o) rest
    | none => none

/-- Result of the rename phase: success with the rename map, a detected
collision (Python `ValueError`; the carried document is the state at the
moment of the raise), or a Python `TypeError`-style crash on a document of
unexpected shape. -/
inductive RenameOut where
  | ok (doc : Node) (renameMap : List (String × String))
  | collision (msg : String) (doc : Node)
  | typeErr
deriving DecidableEq, Repr

/-- Python `SchemaRenamer.rename_schemas_with_spaces` (phase 1): select
schema keys containing spaces, run the collision checks, and only then
move each schema to its normalized key. -/
def rename_schemas_with_spaces (normalize : String → String) (doc : Node) :
    RenameOut :=
  match doc with
  | .obj fields =>
    match dictGet fields "components" with
    | none => .ok doc []
    | some (.obj cf) =>
      match dictGet cf "schemas" with
      | none => .ok doc []
      | some (.obj schemas) =>
        let toRen := selectSchemasToRename normalize schemas
        if toRen.isEmpty then .ok doc []
        else
          match check_name_collisions schemas toRen with
          | some m => .collision m doc
          | none =>
            match applyRenames schemas toRen with
            | some schemas2 =>
              .ok (.obj (dictSet fields "components"
                    (.obj (dictSet cf "schemas" (.obj schemas2))))) toRen
            | none => .typeErr
      | some _ => .typeErr
    | some _ => .typeErr
  | _ => .typeErr

mutual

/-- Python `SchemaRenamer.update_references_recursive`, with the running
`references_updated` counter made explicit: rewrite every `$ref` string
value that starts with the container prefix and whose extracted schema
name is in the rename map. -/
def update_references_recursive (rm : List (String × String)) :
    Node → Node × Nat
  | .obj kvs =>
    let r := updRefFields rm kvs
    (.obj r.1, r.2)
  | .arr xs =>
    let r := updRefElems rm xs
    (.arr r.1, r.2)
  | .str s => (.str s, 0)
  | .num n => (.num n, 0)
  | .bool b => (.bool b, 0)
  | .null => (.null, 0)

/-- Entry loop of `update_references_recursive` over a mapping's items. -/
def updRefFields (rm : List (String × String)) :
    List (String × Node) → List (String × Node) × Nat
  | [] => ([], 0)
  | (k, v) :: rest =>
    let r := updRefFields rm rest
    if k = "$ref" then
      match v with
      | .str s =>
        if strStartsWith s schemasPfx then
          match lookupStr rm (refTail s) with
          | some newName => ((k, .str (schemasPfx ++ newName)) :: r.1, r.2 + 1)
          | none => ((k, .str s) :: r.1, r.2)
        else ((k, .str s) :: r.1, r.2)
      | _ =>
        let rv := update_references_recursive rm v
        ((k, rv.1) :: r.1, rv.2 + r.2)
    else
      let rv := update_references_recursive rm v
      ((k, rv.1) :: r.1, rv.2 + r.2)

/-- Element loop of `update_references_recursive` over a sequence. -/
def updRefElems (rm : List (String × String)) : List Node → List Node × Nat
  | [] => ([], 0)
  | v :: rest =>
    let rv := update_references_recursive rm v
    let r := updRefElems rm rest
    (rv.1 :: r.1, rv.2 + r.2)

end

/-- Python `SchemaRenamer.update_all_references` (phase 2): skipped when
the rename map is empty, otherwise the recursive rewrite. -/
def update_all_references (rm : List (String × String)) (doc : Node) :
    Node × Nat :=
  if rm.isEmpty then (doc, 0) else update_references_recursive rm doc

mutual

/-- Python `SchemaRenamer._collect_references_recursive`: every string
value bound to a `$ref` key anywhere in the tree.  (Python accumulates
into a set; the model keeps a list — only membership and emptiness are
used downstream.) -/
def collect_references_recursive : Node → List String
  | .obj kvs => collectRefFields kvs
  | .arr xs => collectRefElems xs
  | .str _ => []
  | .num _ => []
  | .bool _ => []
  | .null => []

/-- Entry loop of `_collect_references_recursive` over a mapping. -/
def collectRefFields : List (String × Node) → List String
  | [] => []
  | (k, v) :: rest =>
    if k = "$ref" then
      match v with
      | .str s => s :: collectRefFields rest
      | _ => collect_references_recursive v ++ collectRefFields rest
    else collect_references_recursive v ++ collectRefFields rest

/-- Element loop of `_collect_references_recursive` over a sequence. -/
def collectRefElems : List Node → List String
  | [] => []
  | v :: rest => collect_references_recursive v ++ collectRefElems rest

end

/-- The `available_schemas` set of `validate_references`: keys of
`components.schemas` when that navigation succeeds, empty otherwise. -/
def availableSchemas (doc : Node) : List String :=
  match getComponentsSchemas doc with
  | some schemas => dictKeys schemas
  | none => []

/-- Python `SchemaRenamer.validate_references`: the broken references —
collected `$ref` values that start with the container prefix but whose
extracted schema name is not an available schema.  Python raises
`ValueError` exactly when this list is nonempty. -/
def validate_references (doc : Node) : List String :=
  let avail := availableSchemas doc
  (collect_references_recursive doc).filter
    (fun r => strStartsWith r schemasPfx && !(avail.contains (refTail r)))

/-- Result of the full rename-rewrite-validate phase
(`fix_schemas_and_references`, without file I/O): success carries the
final document, the rename map and the reference-update count; failure is
a collision, a broken-reference validation failure (the document is not
persisted), or a shape crash. -/
inductive FixOut where
  | ok (doc : Node) (renameMap : List (String × String)) (count : Nat)
  | collision (msg : String) (doc : Node)
  | brokenRefs (doc : Node) (broken : List String)
  | typeErr
deriving DecidableEq, Repr

/-- Python `SchemaRenamer.fix_schemas_and_references`: rename, rewrite
references, validate; the document is handed to `save_document` only on
success. -/
def fix_schemas_and_references (normalize : String → String) (doc : Node) :
    FixOut :=
  match rename_schemas_with_spaces normalize doc with
  | .typeErr => .typeErr
  | .collision m d => .collision m d
  | .ok d1 rm =>
    let r := update_all_references rm d1
    let broken := validate_references r.1
    if broken.isEmpty then .ok r.1 rm r.2 else .brokenRefs r.1 broken

/-! ### Script 4: final verification rule engine (`OpenAPIFinalVerifier`)

Python raises `TypeError` when a membership test, subscript or `append`
is applied to a value of the wrong shape; those paths are modelled as
`none`. -/

/-- Python `OpenAPIFinalVerifier.get_operation`. -/
def get_operation (doc : Node) (path method : String) : Option Node :=
  match doc with
  | .obj fields =>
    match dictGet fields "paths" with
    | some (.obj paths) =>
      match dictGet paths path with
      | some (.obj pobj) => dictGet pobj (strToLower method)
      | _ => none
    | _ => none
  | _ => none

/-- Write an operation node back at `doc["paths"][path][method]` (models
Python's in-place mutation of the operation dict obtained from
`get_operation`); leaves the document unchanged when the navigation
fails. -/
def setOperation (doc : Node) (path method : String) (op : Node) : Node :=
  match doc with
  | .obj fields =>
    match dictGet fields "paths" with
    | some (.obj paths) =>
      match dictGet paths path with
      | some (.obj pobj) =>
        .obj (dictSet fields "paths"
          (.obj (dictSet paths path (.obj (dictSet pobj method op)))))
      | _ => doc
    | _ => doc
  | _ => doc

/-- One path entry of RULE-01: when the path object is a mapping with a
mapping under `delete` that carries `requestBody`, remove it and count one
correction. -/
def rule01Entry : String × Node → (String × Node) × Nat
  | (pt, .obj pf) =>
    match dictGet pf "delete" with
    | some (.obj delOp) =>
      if hasKey delOp "requestBody" then
        ((pt, .obj (dictSet pf "delete" (.obj (dictDel delOp "requestBody")))), 1)
      else ((pt, .obj pf), 0)
    | _ => ((pt, .obj pf), 0)
  | (pt, v) => ((pt, v), 0)

/-- Python `OpenAPIFinalVerifier.rule_01_no_delete_request_body`: strip
`requestBody` from every DELETE operation; the returned number is the
corrections counter of the rule. -/
def rule_01_no_delete_request_body (doc : Node) : Option (Node × Nat) :=
  match doc with
  | .obj fields =>
    match dictGet fields "paths" with
    | none => some (.obj fields, 0)
    | some (.obj paths) =>
      let rs := paths.map rule01Entry
      some (.obj (dictSet fields "paths" (.obj (rs.map Prod.fst))),
            (rs.map Prod.snd).sum)
    | some _ => none
  | _ => none

/-- The target path of RULE-02 and of `correction_2`. -/
def brandsPath : String := "/environments/{environmentId}/brands"

/-- The filter predicate of RULE-02 / `correction_2`: keep a parameter
unless it is a mapping whose `name` value is the string `name` (the `in`
location is not consulted; non-mapping elements are always kept). -/
def keepParam (p : Node) : Bool :=
  match p with
  | .obj f => if dictGet f "name" = some (.str "name") then false else true
  | _ => true

/-- Python `OpenAPIFinalVerifier.rule_02_no_mismatched_path_params`:
filter the `name` parameter out of the brands GET operation. -/
def rule_02_no_mismatched_path_params (doc : Node) : Option (Node × Nat) :=
  match get_operation doc brandsPath "get" with
  | none => some (doc, 0)
  | some (.obj opf) =>
    match dictGet opf "parameters" with
    | none => some (doc, 0)
    | some (.arr params) =>
      let params2 := params.filter keepParam
      some (setOperation doc brandsPath "get"
              (.obj (dictSet opf "parameters" (.arr params2))),
            params.length - params2.length)
    | some _ => none
  | some _ => none

/-- The two target paths of RULE-03. -/
def rule3Target1 : String := "/v1/{environmentId}/form/formFields/{formId}"

/-- The second target path of RULE-03. -/
def rule3Target2 : String := "/v1/{environmentId}/shoppingcenter/{id}"

/-- The `parameter_payload` literal of RULE-03. -/
def envParamPayload : Node :=
  .obj [("name", .str "environmentId"), ("in", .str "path"),
        ("description",
         .str "ID do Environment (ambiente). Adicionado via script de correção."),
        ("required", .bool true),
        ("schema", .obj [("type", .str "string")])]

/-- The existence test of RULE-03: a mapping parameter whose `name` is
`environmentId` AND whose `in` is `path`. -/
def isEnvPathParam (p : Node) : Bool :=
  match p with
  | .obj f =>
    decide (dictGet f "name" = some (.str "environmentId")) &&
      decide (dictGet f "in" = some (.str "path"))
  | _ => false

/-- One target of RULE-03: ensure the operation's parameter list contains
an `environmentId` path parameter, appending the payload when absent. -/
def ensureEnvParam (doc : Node) (path : String) : Option (Node × Nat) :=
  match get_operation doc path "get" with
  | none => some (doc, 0)
  | some (.obj opf) =>
    match
      (match dictGet opf "parameters" with
       | none => some []
       | some (.arr ps) => some ps
       | some _ => none : Option (List Node))
    with
    | none => none
    | some ps =>
      if ps.any isEnvPathParam then
        some (setOperation doc path "get"
                (.obj (dictSet opf "parameters" (.arr ps))), 0)
      else
        some (setOperation doc path "get"
                (.obj (dictSet opf "parameters" (.arr (ps ++ [envParamPayload])))), 1)
  | some _ => none

/-- Python `OpenAPIFinalVerifier.rule_03_ensure_path_params_defined`:
both targets in order, corrections summed. -/
def rule_03_ensure_path_params_defined (doc : Node) : Option (Node × Nat) :=
  match ensureEnvParam doc rule3Target1 with
  | none => none
  | some (d1, c1) =>
    match ensureEnvParam d1 rule3Target2 with
    | none => none
    | some (d2, c2) => some (d2, c1 + c2)

/-- The three rules of `run_final_verification` in order, with the
per-rule correction counters. -/
def applyAllRules (doc : Node) : Option (Node × Nat × Nat × Nat) :=
  match rule_01_no_delete_request_body doc with
  | none => none
  | some (d1, c1) =>
    match rule_02_no_mismatched_path_params d1 with
    | none => none
    | some (d2, c2) =>
      match rule_03_ensure_path_params_defined d2 with
      | none => none
      | some (d3, c3) => some (d3, c1, c2, c3)

/-- One validation issue of `run_semantic_validation` (the printed
message payloads are abstracted into a structured value). -/
inductive VIssue where
  | deleteBody (pathTemplate : String)
  | brandsNameParam
  | missingEnvParam (pathTemplate : String)
deriving DecidableEq, Repr

/-- RULE-01 re-check of `run_semantic_validation`: every DELETE operation
that still carries a `requestBody`. -/
def deleteBodyIssues : List (String × Node) → List VIssue
  | [] => []
  | (pt, .obj pf) :: rest =>
    (match dictGet pf "delete" with
     | some (.obj dof) =>
       if hasKey dof "requestBody" then [VIssue.deleteBody pt] else []
     | _ => []) ++ deleteBodyIssues rest
  | _ :: rest => deleteBodyIssues rest

/-- RULE-02 re-check of `run_semantic_validation`: one issue per parameter
of the brands GET operation that is a mapping named `name` (an empty
operation mapping is falsy in Python and skipped). -/
def brandsIssues (doc : Node) : List VIssue :=
  match get_operation doc brandsPath "get" with
  | some (.obj f) =>
    if f.isEmpty then []
    else
      match dictGet f "parameters" with
      | some (.arr ps) =>
        (ps.filter (fun p => !keepParam p)).map (fun _ => VIssue.brandsNameParam)
      | _ => []
  | _ => []

/-- Does an operation mapping declare an `environmentId` path parameter?
(Iterating a non-sequence `parameters` value in Python yields no mapping
elements, so it counts as missing.) -/
def hasEnvUnder (f : List (String × Node)) : Bool :=
  match dictGet f "parameters" with
  | some (.arr ps) => ps.any isEnvPathParam
  | some _ => false
  | none => false

/-- RULE-03 re-check of `run_semantic_validation` for one target path: an
issue when the (truthy) operation lacks an `environmentId` path
parameter. -/
def missingEnvIssue (doc : Node) (path : String) : List VIssue :=
  match get_operation doc path "get" with
  | some (.obj f) =>
    if f.isEmpty then []
    else if hasEnvUnder f then [] else [VIssue.missingEnvParam path]
  | _ => []

/-- Python `OpenAPIFinalVerifier.run_semantic_validation`: the full issue
list, re-checking every rule's precondition; Python raises
`ValueError` exactly when it is nonempty. -/
def run_semantic_validation (doc : Node) : List VIssue :=
  (match doc with
   | .obj fields =>
     match dictGet fields "paths" with
     | some (.obj paths) => deleteBodyIssues paths
     | _ => []
   | _ => []) ++
  brandsIssues doc ++
  missingEnvIssue doc rule3Target1 ++
  missingEnvIssue doc rule3Target2

/-- The tail of `run_final_verification` after the rules: run the final
validation and only on success reach the save step (`Except.ok` is the
persisted document; `Except.error` aborts before saving). -/
def finalizeVerification (doc : Node) : Except (List VIssue) Node :=
  match run_semantic_validation doc with
  | [] => Except.ok doc
  | v :: rest => Except.error (v :: rest)

/-- Python `OpenAPIFinalVerifier.run_final_verification` without file
I/O: the three rules, then the final validation, then (on success only)
the save. -/
def run_final_verification (doc : Node) : Option (Except (List VIssue) Node) :=
  match applyAllRules doc with
  | none => none
  | some (d, _) => some (finalizeVerification d)

/-! ### Script 3: semantic path corrections (`SemanticPathsFixer`) -/

/-- The json-path parsing of `navigate_to_operation` /
`navigate_to_path_object`: strip the leading `paths.`, split on `/`, take
the last segment as the HTTP method and rebuild the path template as
`'/' + '/'.join(segments[:-1])`.  Note that for inputs of the form
`paths./a/b/get` the split produces a leading empty segment, so the
rebuilt template starts with a double slash. -/
def parseJsonPath (jsonPath : String) : Option (String × String) :=
  if strStartsWith jsonPath "paths." then
    let pathPart : String := ⟨jsonPath.data.drop 6⟩
    match (strSplitChar pathPart '/').reverse with
    | [] => none
    | method :: revRest =>
      some ("/" ++ String.intercalate "/" revRest.reverse, method)
  else none

/-- Python `SemanticPathsFixer.navigate_to_operation`. -/
def navigate_to_operation (doc : Node) (jsonPath : String) : Option Node :=
  match parseJsonPath jsonPath with
  | none => none
  | some (template, method) =>
    match doc with
    | .obj fields =>
      match dictGet fields "paths" with
      | some (.obj paths) =>
        match dictGet paths template with
        | some (.obj pobj) => dictGet pobj method
        | _ => none
      | _ => none
    | _ => none

/-- The json path of `correction_1`. -/
def c1JsonPath : String :=
  "paths./environments/{environmentId}/employees/{employeeId}/scheduledvisits/delete"

/-- The json path of `correction_2`. -/
def c2JsonPath : String := "paths./environments/{environmentId}/brands/get"

/-- The json path of `correction_3`. -/
def c3JsonPath : String := "paths./v1/{environmentId}/form/formFields/{formId}/get"

/-- The json path of `correction_4`. -/
def c4JsonPath : String := "paths./v1/{environmentId}/shoppingcenter/{id}/get"

/-- Python `SemanticPathsFixer.correction_1_remove_delete_request_body`:
remove `requestBody` from the scheduled-visits DELETE operation (skipped
when the operation is not found). -/
def correction_1_remove_delete_request_body (doc : Node) : Option (Node × Nat) :=
  match parseJsonPath c1JsonPath with
  | none => some (doc, 0)
  | some (template, method) =>
    match navigate_to_operation doc c1JsonPath with
    | none => some (doc, 0)
    | some (.obj opf) =>
      if hasKey opf "requestBody" then
        some (setOperation doc template method (.obj (dictDel opf "requestBody")), 1)
      else some (doc, 0)
    | some _ => none

/-- The existence test of `correction_3`/`correction_4`: a mapping
parameter whose `name` is `environmentId` — the `in` location is NOT
consulted. -/
def isEnvNameParam (p : Node) : Bool :=
  match p with
  | .obj f => decide (dictGet f "name" = some (.str "environmentId"))
  | _ => false

/-- The parameter literal appended by `correction_3`/`correction_4`. -/
def envParamPayload3 : Node :=
  .obj [("name", .str "environmentId"), ("in", .str "path"),
        ("required", .bool true),
        ("description", .str "ID do Environment (ambiente)."),
        ("schema", .obj [("type", .str "string")])]

/-- Python `SemanticPathsFixer.correction_2_remove_name_parameter`:
filter parameters named `name` out of the brands GET operation (note the
target template is addressed through `navigate_to_operation`). -/
def correction_2_remove_name_parameter (doc : Node) : Option (Node × Nat) :=
  match parseJsonPath c2JsonPath with
  | none => some (doc, 0)
  | some (template, method) =>
    match navigate_to_operation doc c2JsonPath with
    | none => some (doc, 0)
    | some (.obj opf) =>
      match dictGet opf "parameters" with
      | none => some (doc, 0)
      | some (.arr params) =>
        let params2 := params.filter keepParam
        some (setOperation doc template method
                (.obj (dictSet opf "parameters" (.arr params2))),
              if params.length - params2.length > 0 then 1 else 0)
      | some _ => none
    | some _ => none

/-- The shared body of `correction_3` and `correction_4`: append the
`environmentId` parameter unless a parameter with that name (in any
location) already exists. -/
def addEnvParamNameOnly (doc : Node) (jsonPath : String) : Option (Node × Nat) :=
  match parseJsonPath jsonPath with
  | none => some (doc, 0)
  | some (template, method) =>
    match navigate_to_operation doc jsonPath with
    | none => some (doc, 0)
    | some (.obj opf) =>
      match
        (match dictGet opf "parameters" with
         | none => some []
         | some (.arr ps) => some ps
         | some _ => none : Option (List Node))
      with
      | none => none
      | some ps =>
        if ps.any isEnvNameParam then
          some (setOperation doc template method
                  (.obj (dictSet opf "parameters" (.arr ps))), 0)
        else
          some (setOperation doc template method
                  (.obj (dictSet opf "parameters" (.arr (ps ++ [envParamPayload3])))), 1)
    | some _ => none

/-- Python `SemanticPathsFixer.correction_3_add_environment_id_form_fields`. -/
def correction_3_add_environment_id_form_fields (doc : Node) : Option (Node × Nat) :=
  addEnvParamNameOnly doc c3JsonPath

/-- Python `SemanticPathsFixer.correction_4_add_environment_id_shopping_center`. -/
def correction_4_add_environment_id_shopping_center (doc : Node) : Option (Node × Nat) :=
  addEnvParamNameOnly doc c4JsonPath

/-- Python `re.findall` for the pattern matching a brace-enclosed
nonempty run of non-closing-brace characters: the path-parameter names of
a URL template. -/
def scanParamsAux : Nat → List Char → List String
  | 0, _ => []
  | _, [] => []
  | fuel + 1, c :: rest =>
    if c = '\x7b' then
      let inner := rest.takeWhile (fun d => d ≠ '\x7d')
      match rest.drop inner.length with
      | d :: rest2 =>
        if d = '\x7d' ∧ ¬ inner.isEmpty then ⟨inner⟩ :: scanParamsAux fuel rest2
        else scanParamsAux fuel rest
      | [] => scanParamsAux fuel rest
    else scanParamsAux fuel rest

/-- Python `re.findall` over a template, driven by a character budget that
the wrapper instantiates with the template's length (every recursive step
consumes at least one character, so the budget is never exhausted). -/
def scanParams (l : List Char) : List String :=
  scanParamsAux l.length l

/-- One validation issue of `validate_paths_semantics` (message payloads
abstracted into a structured value; the `missing` component keeps the
template's parameter order). -/
inductive SIssue where
  | deleteBody (pathTemplate : String)
  | missingParams (method : String) (pathTemplate : String) (missing : List String)
deriving DecidableEq, Repr

/-- The four templates checked by `validate_paths_semantics`. -/
def paths_to_check : List String :=
  ["/environments/{environmentId}/employees/{employeeId}/scheduledvisits",
   "/environments/{environmentId}/brands",
   "/v1/{environmentId}/form/formFields/{formId}",
   "/v1/{environmentId}/shoppingcenter/{id}"]

/-- The five verbs checked by `validate_paths_semantics`. -/
def checkedVerbs : List String := ["get", "post", "put", "patch", "delete"]

/-- The `in=path` parameter names declared by an operation (Python adds
`param.get("name")` for every mapping parameter with `in == "path"`). -/
def definedPathParams (opf : List (String × Node)) : List String :=
  match dictGet opf "parameters" with
  | some (.arr ps) =>
    ps.filterMap (fun p =>
      match p with
      | .obj f =>
        if dictGet f "in" = some (.str "path") then
          match dictGet f "name" with
          | some (.str s) => some s
          | _ => none
        else none
      | _ => none)
  | _ => []

/-- Per-method loop of `validate_paths_semantics` for one path object:
report the template parameters not declared as `in=path` parameters
(Python computes a set difference; the model reports the deduplicated
template parameters, in template order, that are undeclared). -/
def missingParamIssues (template : String) : List (String × Node) → List SIssue
  | [] => []
  | (m, .obj opf) :: rest =>
    (if checkedVerbs.contains (strToLower m) then
      let missing :=
        ((scanParams template.data).eraseDups).filter
          (fun x => ¬ (definedPathParams opf).contains x)
      if missing.isEmpty then [] else [SIssue.missingParams m template missing]
     else []) ++ missingParamIssues template rest
  | _ :: rest => missingParamIssues template rest

/-- Per-template check of `validate_paths_semantics`. -/
def templateIssues (paths : List (String × Node)) (template : String) : List SIssue :=
  match dictGet paths template with
  | some (.obj pf) =>
    (match dictGet pf "delete" with
     | some (.obj dof) =>
       if hasKey dof "requestBody" then [SIssue.deleteBody template] else []
     | _ => []) ++ missingParamIssues template pf
  | _ => []

/-- Python `SemanticPathsFixer.validate_paths_semantics`: the collected
issue list.  This validator only reports — it never raises. -/
def validate_paths_semantics (doc : Node) : List SIssue :=
  match doc with
  | .obj fields =>
    match dictGet fields "paths" with
    | some (.obj paths) => (paths_to_check.map (templateIssues paths)).flatten
    | _ => []
  | _ => []

/-- Python `SemanticPathsFixer.fix_semantic_paths` without file I/O: the
four corrections in order, the report-only validation, then the
unconditional save.  The returned document is persisted regardless of
the collected issues. -/
def fix_semantic_paths (doc : Node) : Option (Node × Nat × List SIssue) :=
  match correction_1_remove_delete_request_body doc with
  | none => none
  | some (d1, n1) =>
    match correction_2_remove_name_parameter d1 with
    | none => none
    | some (d2, n2) =>
      match correction_3_add_environment_id_form_fields d2 with
      | none => none
      | some (d3, n3) =>
        match correction_4_add_environment_id_shopping_center d3 with
        | none => none
        | some (d4, n4) =>
          some (d4, n1 + n2 + n3 + n4, validate_paths_semantics d4)

/-! ### Script 1: hydration (`OpenAPIHydrator`) -/

/-- The HTTP verbs recognized by the hydrator's per-operation loops. -/
def httpVerbs : List String :=
  ["get", "post", "put", "patch", "delete", "options", "head"]

mutual

/-- Python `OpenAPIHydrator.translate_placeholders_recursive`: keys and
scalar strings are looked up in the flat token dictionary and replaced
when present; mappings are rebuilt by Python dict assignment (so two keys
translating to the same name merge). -/
def translate_placeholders_recursive (T : List (String × String)) : Node → Node
  | .obj kvs => .obj (translateFieldsAux T [] kvs)
  | .arr xs => .arr (translateElems T xs)
  | .str s => .str ((lookupStr T s).getD s)
  | .num n => .num n
  | .bool b => .bool b
  | .null => .null

/-- The mapping loop of `translate_placeholders_recursive`:
`result[dictionary.get(key, key)] = translate(value)` in item order. -/
def translateFieldsAux (T : List (String × String))
    (acc : List (String × Node)) : List (String × Node) → List (String × Node)
  | [] => acc
  | (k, v) :: rest =>
    translateFieldsAux T
      (dictSet acc ((lookupStr T k).getD k) (translate_placeholders_recursive T v))
      rest

/-- The sequence loop of `translate_placeholders_recursive`. -/
def translateElems (T : List (String × String)) : List Node → List Node
  | [] => []
  | v :: rest => translate_placeholders_recursive T v :: translateElems T rest

end

/-- Python `OpenAPIHydrator.determine_error_response_type`. -/
def determine_error_response_type (path : String) : String :=
  if strStartsWith path "/v3" || strStartsWith path "/environments" then "v3"
  else "legacy"

/-- The error-response template selected for a path
(`config["default_error_responses"][error_type]`). -/
def errorResponsesFor (errV3 errLegacy : List (String × Node)) (path : String) :
    List (String × Node) :=
  if determine_error_response_type path = "v3" then errV3 else errLegacy

/-- The status-code loop of `inject_error_responses`: add each template
response whose status code is not already present, counting additions. -/
def addMissingResponses (acc : List (String × Node)) (cnt : Nat) :
    List (String × Node) → List (String × Node) × Nat
  | [] => (acc, cnt)
  | (code, r) :: rest =>
    if hasKey acc code then addMissingResponses acc cnt rest
    else addMissingResponses (dictSet acc code r) (cnt + 1) rest

/-- Map an `Option`-valued, count-producing transformation over a list,
summing the counts (Python loops that may raise). -/
def mapCount {α : Type} (f : α → Option (α × Nat)) : List α → Option (List α × Nat)
  | [] => some ([], 0)
  | a :: rest =>
    match f a, mapCount f rest with
    | some (b, n), some (bs, m) => some (b :: bs, n + m)
    | _, _ => none

/-- Per-operation step of `inject_error_responses`: ensure a `responses`
mapping exists and add the missing template responses. -/
def injectErrOp (errs : List (String × Node)) :
    String × Node → Option ((String × Node) × Nat)
  | (m, .obj opf) =>
    if httpVerbs.contains (strToLower m) then
      match
        (match dictGet opf "responses" with
         | none => some []
         | some (.obj r) => some r
         | some _ => none : Option (List (String × Node)))
      with
      | none => none
      | some resps =>
        let r2 := addMissingResponses resps 0 errs
        some ((m, .obj (dictSet opf "responses" (.obj r2.1))), r2.2)
    else some ((m, .obj opf), 0)
  | (m, v) => some ((m, v), 0)

/-- Per-path step of `inject_error_responses` (non-mapping path objects
are skipped by the `isinstance` guard). -/
def injectErrPathEntry (errV3 errLegacy : List (String × Node)) :
    String × Node → Option ((String × Node) × Nat)
  | (pt, .obj pf) =>
    match mapCount (injectErrOp (errorResponsesFor errV3 errLegacy pt)) pf with
    | some (pf2, c) => some ((pt, .obj pf2), c)
    | none => none
  | (pt, v) => some ((pt, v), 0)

/-- Python `OpenAPIHydrator.inject_error_responses`, with the two
template response sets as explicit arguments; the count is
`operations_updated` (one per status code added). -/
def inject_error_responses (errV3 errLegacy : List (String × Node))
    (doc : Node) : Option (Node × Nat) :=
  match doc with
  | .obj fields =>
    match dictGet fields "paths" with
    | none => some (.obj fields, 0)
    | some (.obj paths) =>
      match mapCount (injectErrPathEntry errV3 errLegacy) paths with
      | some (paths2, c) => some (.obj (dictSet fields "paths" (.obj paths2)), c)
      | none => none
    | some _ => none
  | _ => none

/-- Python dict-update loop: assign every supplied entry into a mapping
(overwriting present keys). -/
def setAllParams (acc : List (String × Node)) :
    List (String × Node) → List (String × Node)
  | [] => acc
  | (n, d) :: rest => setAllParams (dictSet acc n d) rest

/-- The `$ref` parameter fragment appended by `inject_global_parameters`. -/
def paramRef (n : String) : Node :=
  .obj [("$ref", .str ("#/components/parameters/" ++ n))]

/-- The per-operation append loop of `inject_global_parameters`: append
each global parameter reference not already present (structural
equality). -/
def appendMissingRefs (acc : List Node) : List String → List Node
  | [] => acc
  | n :: rest =>
    if listHas acc (paramRef n) then appendMissingRefs acc rest
    else appendMissingRefs (acc ++ [paramRef n]) rest

/-- Per-operation step of `inject_global_parameters`: ensure a
`parameters` sequence exists and append the missing references; the count
is `operations_updated` (one per HTTP operation visited). -/
def injectParamsOp (names : List String) :
    String × Node → Option ((String × Node) × Nat)
  | (m, .obj opf) =>
    if httpVerbs.contains (strToLower m) then
      match
        (match dictGet opf "parameters" with
         | none => some []
         | some (.arr ps) => some ps
         | some _ => none : Option (List Node))
      with
      | none => none
      | some ps =>
        some ((m, .obj (dictSet opf "parameters"
                (.arr (appendMissingRefs ps names)))), 1)
    else some ((m, .obj opf), 0)
  | (m, v) => some ((m, v), 0)

/-- Per-path step of `inject_global_parameters`. -/
def injectParamsPathEntry (names : List String) :
    String × Node → Option ((String × Node) × Nat)
  | (pt, .obj pf) =>
    match mapCount (injectParamsOp names) pf with
    | some (pf2, c) => some ((pt, .obj pf2), c)
    | none => none
  | (pt, v) => some ((pt, v), 0)

/-- The tail of `inject_global_parameters` once `components` and its
`parameters` mapping have been resolved (each created empty when
absent): assign every global parameter definition, then append the
references into every HTTP operation. -/
def injectParamsCore (gparams : List (String × Node))
    (fields cf compParams : List (String × Node)) : Option (Node × Nat) :=
  let cf2 := dictSet cf "parameters" (.obj (setAllParams compParams gparams))
  let fields2 := dictSet fields "components" (.obj cf2)
  match dictGet fields2 "paths" with
  | none => some (.obj fields2, 0)
  | some (.obj paths) =>
    match mapCount (injectParamsPathEntry (gparams.map Prod.fst)) paths with
    | some (paths2, c) =>
      some (.obj (dictSet fields2 "paths" (.obj paths2)), c)
    | none => none
  | some _ => none

/-- Python `OpenAPIHydrator.inject_global_parameters`, with the global
parameter definitions as an explicit argument: define the parameters
under `components.parameters` (creating the containers when absent),
then append a reference to each into every HTTP operation. -/
def inject_global_parameters (gparams : List (String × Node)) (doc : Node) :
    Option (Node × Nat) :=
  match doc with
  | .obj fields =>
    match
      (match dictGet fields "components" with
       | none => some []
       | some (.obj cf) => some cf
       | some _ => none : Option (List (String × Node)))
    with
    | none => none
    | some cf =>
      match
        (match dictGet cf "parameters" with
         | none => some []
         | some (.obj p) => some p
         | some _ => none : Option (List (String × Node)))
      with
      | none => none
      | some compParams => injectParamsCore gparams fields cf compParams
  | _ => none

/-- Python `OpenAPIHydrator.inject_security`, with the configured
security schemes as an explicit argument: merge the schemes into
`components.securitySchemes` (creating containers when absent), then set
the document's top-level `security` to the hard-coded
`[{"BasicAuth": []}]`. -/
def inject_security (schemes : List (String × Node)) (doc : Node) : Option Node :=
  match doc with
  | .obj fields =>
    match
      (match dictGet fields "components" with
       | none => some []
       | some (.obj cf) => some cf
       | some _ => none : Option (List (String × Node)))
    with
    | none => none
    | some cf =>
      match
        (match dictGet cf "securitySchemes" with
         | none => some []
         | some (.obj ss) => some ss
         | some _ => none : Option (List (String × Node)))
      with
      | none => none
      | some ss =>
        let cf2 := dictSet cf "securitySchemes" (.obj (setAllParams ss schemes))
        let fields2 := dictSet fields "components" (.obj cf2)
        some (.obj (dictSet fields2 "security"
          (.arr [.obj [("BasicAuth", .arr [])]])))
  | _ => none

/-! ### Spec-side definitions

The definitions in this block follow the specification's wording (for
refinement comparisons and shape statements), not a particular source
function. -/

/-- Modelled from the spec (section 4.4, as amended): the pointwise
rewrite of one pointer value — when it begins with the container prefix
and the extracted identifier is in the rename map, replace it with the
prefix concatenated with the mapped identifier, otherwise leave it
untouched. -/
def rewriteRefValue (rm : List (String × String)) (v : String) : String :=
  if strStartsWith v schemasPfx then
    match lookupStr rm (refTail v) with
    | some n => schemasPfx ++ n
    | none => v
  else v

/-- Is this mapping entry a pointer the rewriter replaces? -/
def isRewrittenEntry (rm : List (String × String)) (k : String) (v : Node) : Bool :=
  k = "$ref" &&
    (match v with
     | .str s => strStartsWith s schemasPfx && (lookupStr rm (refTail s)).isSome
     | _ => false)

mutual

/-- Modelled from the spec (section 4.4): the reference rewriter as a
pure pointwise map over the tree — every `$ref` string value is replaced
by `rewriteRefValue`, everything else is visited recursively unchanged. -/
def specRewriteRefs (rm : List (String × String)) : Node → Node
  | .obj kvs => .obj (specRewriteFields rm kvs)
  | .arr xs => .arr (specRewriteElems rm xs)
  | .str s => .str s
  | .num n => .num n
  | .bool b => .bool b
  | .null => .null

/-- Mapping case of `specRewriteRefs`. -/
def specRewriteFields (rm : List (String × String)) :
    List (String × Node) → List (String × Node)
  | [] => []
  | (k, v) :: rest =>
    (match v with
     | .str s => if k = "$ref" then (k, .str (rewriteRefValue rm s))
                 else (k, .str s)
     | _ => (k, specRewriteRefs rm v)) :: specRewriteFields rm rest

/-- Sequence case of `specRewriteRefs`. -/
def specRewriteElems (rm : List (String × String)) : List Node → List Node
  | [] => []
  | v :: rest => specRewriteRefs rm v :: specRewriteElems rm rest

end

mutual

/-- Modelled from the spec (section 4.4): the count of pointers the
rewriter replaces — one per mapping entry satisfying
`isRewrittenEntry`. -/
def specCountRefs (rm : List (String × String)) : Node → Nat
  | .obj kvs => specCountFields rm kvs
  | .arr xs => specCountElems rm xs
  | .str _ => 0
  | .num _ => 0
  | .bool _ => 0
  | .null => 0

/-- Mapping case of `specCountRefs`. -/
def specCountFields (rm : List (String × String)) : List (String × Node) → Nat
  | [] => 0
  | (k, v) :: rest =>
    (if isRewrittenEntry rm k v then 1 else specCountRefs rm v) +
      specCountFields rm rest

/-- Sequence case of `specCountRefs`. -/
def specCountElems (rm : List (String × String)) : List Node → Nat
  | [] => 0
  | v :: rest => specCountRefs rm v + specCountElems rm rest

end

/-- Modelled from the spec (section 4.4, literally): the trailing
identifier of a pointer value — the text after the container prefix. -/
def specTrailingIdent (v : String) : String :=
  ⟨v.data.drop schemasPfx.data.length⟩

/-- Are the elements of a list pairwise distinct? -/
def distinctKeys : List String → Bool
  | [] => true
  | x :: xs => !(xs.contains x) && distinctKeys xs

/-- The key a mapping key translates to under a token dictionary. -/
def translatedKey (T : List (String × String)) (k : String) : String :=
  (lookupStr T k).getD k

mutual

/-- Modelled from the spec (section 4.2, as amended): no mapping anywhere
in the tree has two keys that translate to the same key under the token
dictionary. -/
def noKeyClash (T : List (String × String)) : Node → Bool
  | .obj kvs =>
    distinctKeys (kvs.map (fun kv => translatedKey T kv.1)) &&
      noKeyClashFields T kvs
  | .arr xs => noKeyClashElems T xs
  | .str _ => true
  | .num _ => true
  | .bool _ => true
  | .null => true

/-- Mapping case of `noKeyClash`. -/
def noKeyClashFields (T : List (String × String)) : List (String × Node) → Bool
  | [] => true
  | (_, v) :: rest => noKeyClash T v && noKeyClashFields T rest

/-- Sequence case of `noKeyClash`. -/
def noKeyClashElems (T : List (String × String)) : List Node → Bool
  | [] => true
  | v :: rest => noKeyClash T v && noKeyClashElems T rest

end

mutual

/-- Modelled from the spec (section 4.2): the structural shape of a tree —
scalars collapse to `null`, mapping keys are erased; two trees with the
same skeleton have the same key count in every mapping, the same length
in every sequence and the same nesting. -/
def skeletonOf : Node → Node
  | .obj kvs => .obj (skeletonFields kvs)
  | .arr xs => .arr (skeletonElems xs)
  | .str _ => .null
  | .num _ => .null
  | .bool _ => .null
  | .null => .null

/-- Mapping case of `skeletonOf`. -/
def skeletonFields : List (String × Node) → List (String × Node)
  | [] => []
  | (_, v) :: rest => ("", skeletonOf v) :: skeletonFields rest

/-- Sequence case of `skeletonOf`. -/
def skeletonElems : List Node → List Node
  | [] => []
  | v :: rest => skeletonOf v :: skeletonElems rest

end

/-! ### Concrete documents used by witnesses and counterexamples -/

/-- A brands document with an arbitrary parameter list at the RULE-02
target operation. -/
def mkBrandsDoc (L : List Node) : Node :=
  .obj [("paths", .obj [(brandsPath,
    .obj [("get", .obj [("parameters", .arr L)])])])]

/-- A brands document at the (double-slash) template actually addressed
by `correction_2`'s json path. -/
def mkBrandsDoc3 (L : List Node) : Node :=
  .obj [("paths", .obj [("//environments/{environmentId}/brands",
    .obj [("get", .obj [("parameters", .arr L)])])])]

/-- A document with an arbitrary parameter list at the first RULE-03
target operation. -/
def mkRule3Doc (L : List Node) : Node :=
  .obj [("paths", .obj [(rule3Target1,
    .obj [("get", .obj [("parameters", .arr L)])])])]

/-- A document with an arbitrary parameter list at the operation
addressed by `correction_3`'s (double-slash) json path. -/
def mkC3Doc (L : List Node) : Node :=
  .obj [("paths", .obj [("//v1/{environmentId}/form/formFields/{formId}",
    .obj [("get", .obj [("parameters", .arr L)])])])]

/-- An `environmentId` parameter located in the query, not the path. -/
def envQueryParam : Node :=
  .obj [("name", .str "environmentId"), ("in", .str "query")]

/-- A document whose formFields GET operation declares no parameters: the
semantic-paths corrections cannot reach it (their json paths rebuild a
double-slash template), so its validation issues survive the whole
phase. -/
def c6CounterDoc : Node :=
  .obj [("paths", .obj [(rule3Target1,
    .obj [("get", .obj [("parameters", .arr [])])])])]

/-- A document with a DELETE operation that carries a `requestBody`. -/
def c6WitnessDoc : Node :=
  .obj [("paths", .obj [("/a",
    .obj [("delete", .obj [("requestBody", .obj [])])])])]

/-! ### Invariants of the rule engine (auxiliary predicates for the
idempotence proofs) -/

/-- No mapping DELETE operation in the document's paths carries a
`requestBody` (the postcondition of RULE-01). -/
def Rule01Clean (d : Node) : Prop :=
  ∀ fields paths pt pf dof, d = .obj fields →
    dictGet fields "paths" = some (.obj paths) →
    (pt, .obj pf) ∈ paths →
    dictGet pf "delete" = some (.obj dof) →
    hasKey dof "requestBody" = false

/-- The document is a mapping whose `paths` entry, when present, is a
mapping (the shape on which RULE-01 runs without a type error). -/
def DocShapeOK (d : Node) : Prop :=
  ∃ fields, d = .obj fields ∧
    (dictGet fields "paths" = none ∨
     ∃ paths, dictGet fields "paths" = some (.obj paths))

/-- The brands GET operation's parameter list, when it exists, contains
no parameter named `name` (the postcondition of RULE-02). -/
def Rule02Clean (d : Node) : Prop :=
  ∀ opf ps, get_operation d brandsPath "get" = some (.obj opf) →
    dictGet opf "parameters" = some (.arr ps) →
    ps.filter keepParam = ps

/-- The brands GET operation is absent, or is a mapping whose
`parameters` entry is absent or a sequence (the shape on which RULE-02
runs without a type error). -/
def Rule02Shape (d : Node) : Prop :=
  get_operation d brandsPath "get" = none ∨
  ∃ opf, get_operation d brandsPath "get" = some (.obj opf) ∧
    (dictGet opf "parameters" = none ∨
     ∃ ps, dictGet opf "parameters" = some (.arr ps))

/-- The RULE-03 target operation at `p` is absent, or declares an
`environmentId` path parameter in its parameter sequence (the
postcondition of one RULE-03 target). -/
def EnvOKAt (d : Node) (p : String) : Prop :=
  get_operation d p "get" = none ∨
  ∃ opf ps, get_operation d p "get" = some (.obj opf) ∧
    dictGet opf "parameters" = some (.arr ps) ∧
    ps.any isEnvPathParam = true

/-- Every HTTP operation reachable under `paths` carries a `responses`
mapping containing every default error response for its path (the
postcondition of `inject_error_responses`). -/
def ErrOK (errV3 errLegacy : List (String × Node)) (d : Node) : Prop :=
  ∃ fields, d = .obj fields ∧
    (dictGet fields "paths" = none ∨
     ∃ paths, dictGet fields "paths" = some (.obj paths) ∧
       ∀ pt pf, (pt, .obj pf) ∈ paths →
         ∀ m opf, (m, .obj opf) ∈ pf →
           httpVerbs.contains (strToLower m) = true →
           ∃ resps, dictGet opf "responses" = some (.obj resps) ∧
             ∀ code r, (code, r) ∈ errorResponsesFor errV3 errLegacy pt →
               hasKey resps code = true)

/-- The global parameters are defined under `components.parameters` and
referenced from every HTTP operation (the postcondition of
`inject_global_parameters`). -/
def ParamsOK (gparams : List (String × Node)) (d : Node) : Prop :=
  ∃ fields, d = .obj fields ∧
    (∃ cf, dictGet fields "components" = some (.obj cf) ∧
      ∃ cp, dictGet cf "parameters" = some (.obj cp) ∧
        ∀ n v, (n, v) ∈ gparams → dictGet cp n = some v) ∧
    (dictGet fields "paths" = none ∨
     ∃ paths, dictGet fields "paths" = some (.obj paths) ∧
       ∀ pt pf, (pt, .obj pf) ∈ paths →
         ∀ m opf, (m, .obj opf) ∈ pf →
           httpVerbs.contains (strToLower m) = true →
           ∃ ps, dictGet opf "parameters" = some (.arr ps) ∧
             ∀ n ∈ gparams.map Prod.fst, listHas ps (paramRef n) = true)

/-- The `$ref` strings a single mapping entry contributes to
`collect_references_recursive` (the body of the entry loop). -/
def entryRefs : String × Node → List String
  | (k, v) =>
    if k = "$ref" then
      (match v with
       | .str s => [s]
       | _ => collect_references_recursive v)
    else collect_references_recursive v

/-- The schema registry of the concrete renamer scenario: one key with a
space holding a pointer to the other, space-free key. -/
def c2Schemas : List (String × Node) :=
  [("My Schema", .obj [("$ref", .str "#/components/schemas/Other")]),
   ("Other", .obj [])]

/-- The `components` mapping of the concrete renamer scenario. -/
def c2Cf : List (String × Node) := [("schemas", .obj c2Schemas)]

/-- Top-level fields of the concrete renamer scenario: a schema name with
a space, referenced from `paths`. -/
def c2Fields : List (String × Node) :=
  [("components", .obj c2Cf),
   ("paths", .obj [("p", .obj [("$ref", .str "#/components/schemas/My Schema")])])]

/-- A document whose only flaw is a pre-existing dangling `$ref`: nothing
needs renaming, yet validation fails. -/
def c2CounterDoc : Node := .obj [
  ("components", .obj [("schemas", .obj [])]),
  ("x", .obj [("$ref", .str "#/components/schemas/Missing")])]

/-- Concrete input for exercising the fragment-injection phase. -/
def c8Doc : Node := .obj [("paths", .obj [("/v3/x", .obj [("get", .obj [])])])]

/-- `c8Doc` after the error-response injection. -/
def c8D1 : Node := .obj [("paths", .obj [("/v3/x", .obj [("get",
  .obj [("responses", .obj [("500", .str "e")])])])])]

/-- `c8D1` after the global-parameter injection. -/
def c8D2 : Node := .obj [
  ("paths", .obj [("/v3/x", .obj [("get", .obj [
    ("responses", .obj [("500", .str "e")]),
    ("parameters",
     .arr [.obj [("$ref", .str "#/components/parameters/environmentId")]])])])]),
  ("components", .obj [("parameters", .obj [("environmentId", .str "p")])])]

/-! ### Dictionary lemmas -/

theorem dictGet_dictSet_self (l : List (String × Node)) (k : String) (v : Node) :
    dictGet (dictSet l k v) k = some v := by
  induction l with
  | nil => simp [dictSet, dictGet]
  | cons hd tl ih =>
    obtain ⟨k', v'⟩ := hd
    by_cases h : k' = k <;> simp [dictSet, dictGet, h, ih]

theorem dictGet_dictSet_ne (l : List (String × Node)) {k k' : String} (v : Node)
    (h : k' ≠ k) : dictGet (dictSet l k v) k' = dictGet l k' := by
  induction l with
  | nil => simp [dictSet, dictGet, Ne.symm h]
  | cons hd tl ih =>
    obtain ⟨k'', v''⟩ := hd
    by_cases h2 : k'' = k
    · subst h2; simp [dictSet, dictGet, Ne.symm h]
    · simp only [dictSet, if_neg h2, dictGet]
      by_cases h3 : k'' = k' <;> simp [h3, ih]

theorem dictSet_self {l : List (String × Node)} {k : String} {v : Node}
    (h : dictGet l k = some v) : dictSet l k v = l := by
  induction l with
  | nil => simp [dictGet] at h
  | cons hd tl ih =>
    obtain ⟨k', v'⟩ := hd
    by_cases h2 : k' = k
    · subst h2
      simp [dictGet] at h
      simp [dictSet, h]
    · simp [dictGet, h2] at h
      simp [dictSet, h2, ih h]

theorem dictGet_dictDel_self (l : List (String × Node)) (k : String) :
    dictGet (dictDel l k) k = none := by
  induction l with
  | nil => simp [dictDel, dictGet]
  | cons hd tl ih =>
    obtain ⟨k', v'⟩ := hd
    by_cases h : k' = k
    · subst h; simpa [dictDel, List.filter_cons] using ih
    · simpa [dictDel, List.filter_cons, h, dictGet] using ih

theorem dictGet_dictDel_ne (l : List (String × Node)) {k k' : String}
    (h : k' ≠ k) : dictGet (dictDel l k) k' = dictGet l k' := by
  induction l with
  | nil => simp [dictDel, dictGet]
  | cons hd tl ih =>
    obtain ⟨k'', v''⟩ := hd
    by_cases h2 : k'' = k
    · subst h2
      simp only [dictDel, List.filter_cons]
      simpa [dictGet, Ne.symm h, dictDel] using ih
    · by_cases h3 : k'' = k'
      · subst h3
        simp [dictDel, List.filter_cons, h2, dictGet]
      · simpa [dictDel, List.filter_cons, h2, h3, dictGet] using ih

theorem dictGet_eq_none_iff {l : List (String × Node)} {k : String} :
    dictGet l k = none ↔ k ∉ dictKeys l := by
  induction l with
  | nil => simp [dictGet, dictKeys]
  | cons hd tl ih =>
    obtain ⟨k', v'⟩ := hd
    by_cases h : k' = k
    · subst h; simp [dictGet, dictKeys]
    · simp [dictGet, dictKeys, h, ih, Ne.symm h]

theorem dictGet_isSome_iff {l : List (String × Node)} {k : String} :
    (dictGet l k).isSome = true ↔ k ∈ dictKeys l := by
  rcases h : dictGet l k with _ | v
  · simp [dictGet_eq_none_iff.mp h]
  · simp
    have : ¬ dictGet l k = none := by simp [h]
    simpa [dictGet_eq_none_iff] using this

theorem dictGet_mem {l : List (String × Node)} {k : String} {v : Node}
    (h : dictGet l k = some v) : (k, v) ∈ l := by
  induction l with
  | nil => simp [dictGet] at h
  | cons hd tl ih =>
    obtain ⟨k', v'⟩ := hd
    by_cases h2 : k' = k
    · subst h2; simp [dictGet] at h; simp [h]
    · simp [dictGet, h2] at h
      simp [ih h]

theorem mem_dictSet {l : List (String × Node)} {k : String} {v : Node}
    {x : String × Node} (h : x ∈ dictSet l k v) : x ∈ l ∨ x = (k, v) := by
  induction l with
  | nil => simp [dictSet] at h; simp [h]
  | cons hd tl ih =>
    obtain ⟨k', v'⟩ := hd
    by_cases h2 : k' = k
    · subst h2; simp [dictSet] at h
      rcases h with h | h
      · right; simp [h]
      · left; simp [h]
    · simp [dictSet, h2] at h
      rcases h with h | h
      · left; simp [h]
      · rcases ih h with h3 | h3
        · left; simp [h3]
        · right; exact h3

theorem mem_keys_dictSet {l : List (String × Node)} {k a : String} {v : Node} :
    a ∈ dictKeys (dictSet l k v) ↔ a ∈ dictKeys l ∨ a = k := by
  induction l with
  | nil => simp [dictSet, dictKeys]
  | cons hd tl ih =>
    obtain ⟨k', v'⟩ := hd
    by_cases h2 : k' = k
    · subst h2; simp [dictSet, dictKeys]; tauto
    · simp [dictSet, dictKeys, h2] at *
      tauto

theorem mem_keys_dictDel {l : List (String × Node)} {k a : String} :
    a ∈ dictKeys (dictDel l k) ↔ a ∈ dictKeys l ∧ a ≠ k := by
  simp only [dictKeys, List.mem_map, dictDel, List.mem_filter]
  constructor
  · rintro ⟨x, ⟨hx, hk⟩, rfl⟩
    exact ⟨⟨x, hx, rfl⟩, by simpa using hk⟩
  · rintro ⟨⟨x, hx, rfl⟩, hk⟩
    exact ⟨x, ⟨hx, by simpa using hk⟩, rfl⟩

theorem mem_dictDel {l : List (String × Node)} {k : String} {x : String × Node} :
    x ∈ dictDel l k ↔ x ∈ l ∧ x.1 ≠ k := by
  simp [dictDel, List.mem_filter]

/-! ### C9: the security injection hard-codes the global security field -/

/-- C9: for every configuration and every document on which
`inject_security` succeeds, the resulting document's top-level `security`
field is exactly the hard-coded singleton `[ {"BasicAuth": []} ]`,
independently of the supplied security schemes. -/
theorem inject_security_hardcoded
    (schemes : List (String × Node)) (doc d' : Node)
    (h : inject_security schemes doc = some d') :
    ∃ fields', d' = .obj fields' ∧
      dictGet fields' "security" =
        some (.arr [.obj [("BasicAuth", .arr [])]]) := by
  unfold inject_security at h
  rcases doc with s | n | b | _ | fields | xs <;> simp at h
  rcases hc : dictGet fields "components" with _ | c
  all_goals rw [hc] at h
  case none =>
    simp at h
    rcases hs : dictGet ([] : List (String × Node)) "securitySchemes" with _ | s2
    · simp [hs] at h
      exact ⟨_, h.symm, dictGet_dictSet_self _ _ _⟩
    · simp [dictGet] at hs
  case some =>
    rcases c with s | n | b | _ | cf | xs <;> simp at h
    rcases hs : dictGet cf "securitySchemes" with _ | s2
    all_goals rw [hs] at h
    case none =>
      simp at h
      exact ⟨_, h.symm, dictGet_dictSet_self _ _ _⟩
    case some =>
      rcases s2 with s | n | b | _ | ss | xs <;> simp at h
      exact ⟨_, h.symm, dictGet_dictSet_self _ _ _⟩

/-- Witness for C9 at a concrete configuration and document. -/
theorem inject_security_hardcoded_witness :
    ∃ fields', (Node.obj
        [("components", .obj [("securitySchemes", .obj [])]),
         ("security", .arr [.obj [("BasicAuth", .arr [])]])]) = .obj fields' ∧
      dictGet fields' "security" =
        some (.arr [.obj [("BasicAuth", .arr [])]]) :=
  inject_security_hardcoded [] (.obj []) _ rfl

/-! ### C10: the name-parameter removal filters by name alone -/

/-- C10: the `name`-parameter removal (RULE-02 of the final verifier, and
`correction_2` of the semantic-paths fixer) filters the brands GET
operation's parameters by the predicate `name == "name"` alone: every
mapping parameter whose `name` value is the string `name` is removed
regardless of its `in` location, and every non-mapping element is kept. -/
theorem name_param_removal_ignores_location (L : List Node) :
    rule_02_no_mismatched_path_params (mkBrandsDoc L) =
      some (mkBrandsDoc (L.filter keepParam),
            L.length - (L.filter keepParam).length) ∧
    correction_2_remove_name_parameter (mkBrandsDoc3 L) =
      some (mkBrandsDoc3 (L.filter keepParam),
            if L.length - (L.filter keepParam).length > 0 then 1 else 0) ∧
    (∀ f, keepParam (.obj f) = false ↔ dictGet f "name" = some (.str "name")) ∧
    (∀ s, keepParam (.str s) = true) ∧
    (∀ n, keepParam (.num n) = true) ∧
    (∀ b, keepParam (.bool b) = true) ∧
    keepParam .null = true ∧
    (∀ xs, keepParam (.arr xs) = true) := by
  refine ⟨rfl, rfl, ?_, fun _ => rfl, fun _ => rfl, fun _ => rfl, rfl, fun _ => rfl⟩
  intro f
  simp only [keepParam]
  split <;> simp_all

/-! ### C1: collisions abort the rename with the document unchanged -/

theorem list_contains_iff (l : List String) (a : String) :
    l.contains a = true ↔ a ∈ l := by
  simp [List.contains_eq_any_beq, List.any_eq_true, beq_iff_eq, eq_comm]

theorem checkDupNewNames_ok {prs : List (String × String)} :
    ∀ {seen : List String}, checkDupNewNames prs seen = none →
      (prs.map Prod.snd).Nodup ∧ ∀ n ∈ prs.map Prod.snd, n ∉ seen := by
  induction prs with
  | nil => intro seen _; simp
  | cons p rest ih =>
    intro seen h
    obtain ⟨o, n⟩ := p
    simp only [checkDupNewNames] at h
    by_cases hn : n ∈ seen
    · simp [hn] at h
    · simp only [if_neg hn] at h
      obtain ⟨hnodup, hall⟩ := ih h
      refine ⟨?_, ?_⟩
      · simp only [List.map_cons, List.nodup_cons]
        refine ⟨fun hmem => ?_, hnodup⟩
        exact (hall n hmem) (by simp)
      · intro x hx
        simp only [List.map_cons, List.mem_cons] at hx
        rcases hx with rfl | hx
        · exact hn
        · intro hxseen
          exact (hall x hx) (by simp [hxseen])

theorem checkUntouchedCollision_ok {untouched : List String}
    {prs : List (String × String)}
    (h : checkUntouchedCollision untouched prs = none) :
    ∀ p ∈ prs, p.2 ∉ untouched := by
  induction prs with
  | nil => simp
  | cons p rest ih =>
    obtain ⟨o, n⟩ := p
    simp only [checkUntouchedCollision] at h
    by_cases hn : n ∈ untouched
    · simp [hn] at h
    · simp only [if_neg hn] at h
      intro q hq
      rcases List.mem_cons.mp hq with rfl | hq
      · exact hn
      · exact ih h q hq

/-- C1: for every document and every normalizer, if two distinct selected
schema keys normalize to the same new name, or a computed new name equals
an existing schema key that is not being renamed, then
`rename_schemas_with_spaces` fails with the collision error and the
returned (unmutated) document is exactly the input document: the
collision check runs to completion before any key is moved. -/
theorem rename_collision_aborts_unchanged
    (normalize : String → String) (fields cf schemas : List (String × Node))
    (hc : dictGet fields "components" = some (.obj cf))
    (hs : dictGet cf "schemas" = some (.obj schemas))
    (hcol :
      ¬ ((selectSchemasToRename normalize schemas).map Prod.snd).Nodup ∨
      ∃ p ∈ selectSchemasToRename normalize schemas,
        p.2 ∈ dictKeys schemas ∧
        p.2 ∉ (selectSchemasToRename normalize schemas).map Prod.fst) :
    ∃ msg, rename_schemas_with_spaces normalize (.obj fields) =
      .collision msg (.obj fields) := by
  set toRen := selectSchemasToRename normalize schemas with htr
  have hne : toRen.isEmpty = false := by
    rcases hcol with hcol | ⟨p, hp, _⟩
    · rcases toRen with _ | _
      · simp at hcol
      · simp
    · rcases toRen with _ | _
      · simp at hp
      · simp
  rcases hchk : check_name_collisions schemas toRen with _ | m
  · exfalso
    unfold check_name_collisions at hchk
    rcases hdup : checkDupNewNames toRen [] with _ | m2
    · rw [hdup] at hchk
      obtain ⟨hnodup, _⟩ := checkDupNewNames_ok hdup
      have huntouched := checkUntouchedCollision_ok hchk
      rcases hcol with hcol | ⟨p, hp, hmem, hnotren⟩
      · exact hcol hnodup
      · refine huntouched p hp ?_
        simp only [List.mem_filter]
        refine ⟨hmem, ?_⟩
        simp only [Bool.not_eq_true', ← Bool.not_eq_true, list_contains_iff]
        simpa using hnotren
    · rw [hdup] at hchk
      simp at hchk
  · refine ⟨m, ?_⟩
    simp only [rename_schemas_with_spaces, hc, hs, ← htr, hne, Bool.false_eq_true,
      if_false, hchk]

/-- Witness for C1: the schema registry contains `A B` (selected) and
`AB` (untouched); normalizing `A B` collides with the untouched `AB`. -/
theorem rename_collision_aborts_unchanged_witness :
    ∃ msg,
      rename_schemas_with_spaces default_normalizer
        (.obj [("components", .obj [("schemas",
          .obj [("A B", .null), ("AB", .null)])])]) =
      .collision msg
        (.obj [("components", .obj [("schemas",
          .obj [("A B", .null), ("AB", .null)])])]) :=
  rename_collision_aborts_unchanged default_normalizer _ _
    [("A B", Node.null), ("AB", Node.null)] rfl rfl
    (Or.inr (by decide))

/-! ### C3: the rewriter as a pointwise map -/

theorem rewriteRefValue_nil (s : String) : rewriteRefValue [] s = s := by
  unfold rewriteRefValue lookupStr
  split <;> rfl

theorem isRewrittenEntry_nil (k : String) (v : Node) :
    isRewrittenEntry [] k v = false := by
  unfold isRewrittenEntry lookupStr
  rcases v with s | n | b | _ | kvs | xs <;> simp

mutual

theorem updRef_spec (rm : List (String × String)) :
    (n : Node) →
      update_references_recursive rm n = (specRewriteRefs rm n, specCountRefs rm n)
  | .obj kvs => by
    simp only [update_references_recursive, specRewriteRefs, specCountRefs,
      updRefFields_spec rm kvs]
  | .arr xs => by
    simp only [update_references_recursive, specRewriteRefs, specCountRefs,
      updRefElems_spec rm xs]
  | .str s => rfl
  | .num n => rfl
  | .bool b => rfl
  | .null => rfl

theorem updRefFields_spec (rm : List (String × String)) :
    (l : List (String × Node)) →
      updRefFields rm l = (specRewriteFields rm l, specCountFields rm l)
  | [] => rfl
  | (k, v) :: rest => by
    have ihr := updRefFields_spec rm rest
    by_cases hk : k = "$ref"
    · subst hk
      rcases v with s | n | b | _ | kvs | xs
      · by_cases hsw : strStartsWith s schemasPfx
        · rcases hlu : lookupStr rm (refTail s) with _ | nn
          · simp [updRefFields, specRewriteFields, specCountFields,
              isRewrittenEntry, rewriteRefValue, hsw, hlu, ihr, specCountRefs]
          · simp [updRefFields, specRewriteFields, specCountFields,
              isRewrittenEntry, rewriteRefValue, hsw, hlu, ihr]
            omega
        · simp [updRefFields, specRewriteFields, specCountFields,
            isRewrittenEntry, rewriteRefValue, hsw, ihr, specCountRefs]
      all_goals
        simp [updRefFields, specRewriteFields, specCountFields,
          isRewrittenEntry, ihr, updRef_spec rm _]
    · rcases v with s | n | b | _ | kvs | xs <;>
        simp [updRefFields, specRewriteFields, specCountFields, specRewriteRefs,
          specCountRefs, isRewrittenEntry, hk, ihr, updRef_spec rm _]

theorem updRefElems_spec (rm : List (String × String)) :
    (l : List Node) →
      updRefElems rm l = (specRewriteElems rm l, specCountElems rm l)
  | [] => rfl
  | v :: rest => by
    simp [updRefElems, specRewriteElems, specCountElems,
      updRefElems_spec rm rest, updRef_spec rm v]

end

mutual

theorem spec_nil_node :
    (n : Node) → specRewriteRefs [] n = n ∧ specCountRefs [] n = 0
  | .obj kvs => by
    simp only [specRewriteRefs, specCountRefs]
    have h := spec_nil_fields kvs
    simp [h.1, h.2]
  | .arr xs => by
    simp only [specRewriteRefs, specCountRefs]
    have h := spec_nil_elems xs
    simp [h.1, h.2]
  | .str s => ⟨rfl, rfl⟩
  | .num n => ⟨rfl, rfl⟩
  | .bool b => ⟨rfl, rfl⟩
  | .null => ⟨rfl, rfl⟩

theorem spec_nil_fields :
    (l : List (String × Node)) →
      specRewriteFields [] l = l ∧ specCountFields [] l = 0
  | [] => ⟨rfl, rfl⟩
  | (k, v) :: rest => by
    have ihr := spec_nil_fields rest
    have ihv := spec_nil_node v
    rcases v with s | n | b | _ | kvs | xs <;>
      simp [specRewriteFields, specCountFields, isRewrittenEntry_nil,
        rewriteRefValue_nil, ihr.1, ihr.2, ihv.1, ihv.2]

theorem spec_nil_elems :
    (l : List Node) → specRewriteElems [] l = l ∧ specCountElems [] l = 0
  | [] => ⟨rfl, rfl⟩
  | v :: rest => by
    have ihr := spec_nil_elems rest
    have ihv := spec_nil_node v
    simp [specRewriteElems, specCountElems, ihr.1, ihr.2, ihv.1, ihv.2]

end

/-- C3 (amended): the reference rewriter rewrites exactly the mapping
entries with a `$ref` key whose string value begins with the container
prefix and whose extracted identifier — the value with every occurrence
of the prefix removed, which coincides with the trailing identifier
whenever the tail does not itself contain the prefix — is a key of the
rename map, replacing the value with the prefix concatenated with the
mapped identifier and counting one per rewrite; every other `$ref` value
is left untouched, and running with an empty rename map is a no-op with
count 0. -/
theorem rewriter_is_pointwise_map (rm : List (String × String)) (doc : Node) :
    update_references_recursive rm doc =
      (specRewriteRefs rm doc, specCountRefs rm doc) ∧
    update_references_recursive [] doc = (doc, 0) ∧
    update_all_references [] doc = (doc, 0) := by
  refine ⟨updRef_spec rm doc, ?_, by simp [update_all_references]⟩
  rw [updRef_spec [] doc, (spec_nil_node doc).1, (spec_nil_node doc).2]

/-- C3 counterexample: a pointer whose trailing identifier (`specTrailingIdent`,
the text after the container prefix) is NOT a key of the rename map, yet
the rewriter replaces it and counts it, because the extraction deletes
every occurrence of the prefix, not only the leading one. -/
theorem update_references_rewrites_despite_trailing_ident :
    lookupStr [("A", "B")]
      (specTrailingIdent "#/components/schemas/A#/components/schemas/") = none ∧
    update_references_recursive [("A", "B")]
      (.obj [("$ref", .str "#/components/schemas/A#/components/schemas/")]) =
      (.obj [("$ref", .str "#/components/schemas/B")], 1) :=
  ⟨by decide, by decide⟩

/-! ### C5: parameter-appending equivalence -/

/-- C5 counterexample: the semantic-paths fixer's `correction_3` checks
only the parameter name, so an `environmentId` parameter located in the
query — not equivalent under name+`in` equality — suppresses the append:
the operation is left unchanged and zero corrections are reported. -/
theorem correction3_suppressed_by_query_param :
    correction_3_add_environment_id_form_fields (mkC3Doc [envQueryParam]) =
      some (mkC3Doc [envQueryParam], 0) ∧
    [envQueryParam].any isEnvPathParam = false :=
  ⟨by decide, by decide⟩

/-- C5 (amended): for the final verifier's RULE-03, the payload is
appended exactly when no existing parameter is equivalent under equal
`name` AND equal `in`; an existing parameter with the same name but a
different location does not suppress the append.  (The semantic-paths
corrections `correction_3`/`correction_4` instead compare the name
alone.) -/
theorem rule03_appends_iff_no_name_and_in_match (L : List Node) :
    (L.any isEnvPathParam = false →
      rule_03_ensure_path_params_defined (mkRule3Doc L) =
        some (mkRule3Doc (L ++ [envParamPayload]), 1)) ∧
    (L.any isEnvPathParam = true →
      rule_03_ensure_path_params_defined (mkRule3Doc L) =
        some (mkRule3Doc L, 0)) ∧
    (∀ f, isEnvPathParam (.obj f) = true ↔
      (dictGet f "name" = some (.str "environmentId") ∧
       dictGet f "in" = some (.str "path"))) := by
  have h1 : get_operation (mkRule3Doc L) rule3Target1 "get" =
      some (.obj [("parameters", .arr L)]) := rfl
  refine ⟨?_, ?_, ?_⟩
  · intro h
    simp only [rule_03_ensure_path_params_defined, ensureEnvParam, h1]
    simp only [dictGet, reduceIte, h, Bool.false_eq_true, if_false]
    rfl
  · intro h
    simp only [rule_03_ensure_path_params_defined, ensureEnvParam, h1]
    simp only [dictGet, reduceIte, h, if_true]
    rfl
  · intro f
    simp [isEnvPathParam]

/-- Witness for C5 at the counterexample's parameter list: under RULE-03
the query-located `environmentId` does not suppress the append. -/
theorem rule03_appends_iff_no_name_and_in_match_witness :
    rule_03_ensure_path_params_defined (mkRule3Doc [envQueryParam]) =
      some (mkRule3Doc ([envQueryParam] ++ [envParamPayload]), 1) :=
  (rule03_appends_iff_no_name_and_in_match [envQueryParam]).1 (by decide)

/-! ### C6: the final validation pass and persistence -/

theorem deleteBodyIssues_ne_nil {paths : List (String × Node)} {pt : String}
    {pf dof : List (String × Node)} (hmem : (pt, .obj pf) ∈ paths)
    (hd : dictGet pf "delete" = some (.obj dof))
    (hrb : hasKey dof "requestBody" = true) :
    deleteBodyIssues paths ≠ [] := by
  induction paths with
  | nil => simp at hmem
  | cons hd2 tl ih =>
    rcases List.mem_cons.mp hmem with heq | hmem2
    · subst heq
      simp [deleteBodyIssues, hd, hrb]
    · obtain ⟨k2, v2⟩ := hd2
      rcases v2 with s | n | b | _ | pf2 | xs <;>
        simp only [deleteBodyIssues, ne_eq, List.append_eq_nil, not_and] <;>
        first
          | exact ih hmem2
          | (intro h2; exact ih hmem2)

/-- C6 (amended): in the final-verification engine, the validation pass
re-checks each rule's precondition (a DELETE operation still carrying a
`requestBody`, a surviving `name` parameter on the brands GET operation,
a missing `environmentId` path parameter at a RULE-03 target each make
the issue list nonempty), and whenever any issue remains the phase
aborts with the validation error before the save step — the document is
not persisted.  (In the semantic-paths fixer, by contrast, the analogous
validation only reports and the document is saved regardless; see the
counterexample.) -/
theorem final_validation_blocks_persistence (d : Node) :
    (run_semantic_validation d ≠ [] →
      finalizeVerification d = Except.error (run_semantic_validation d)) ∧
    (∀ fields paths pt pf dof,
      d = .obj fields →
      dictGet fields "paths" = some (.obj paths) →
      (pt, .obj pf) ∈ paths →
      dictGet pf "delete" = some (.obj dof) →
      hasKey dof "requestBody" = true →
      run_semantic_validation d ≠ []) ∧
    (∀ f ps p, get_operation d brandsPath "get" = some (.obj f) →
      dictGet f "parameters" = some (.arr ps) →
      p ∈ ps → keepParam p = false →
      run_semantic_validation d ≠ []) ∧
    (∀ f, get_operation d rule3Target1 "get" = some (.obj f) →
      f ≠ [] → hasEnvUnder f = false →
      run_semantic_validation d ≠ []) := by
  refine ⟨?_, ?_, ?_, ?_⟩
  · intro h
    rcases hv : run_semantic_validation d with _ | ⟨i, is2⟩
    · exact absurd hv h
    · simp [finalizeVerification, hv]
  · intro fields paths pt pf dof hdoc hpaths hmem hdel hrb
    subst hdoc
    have h1 := deleteBodyIssues_ne_nil hmem hdel hrb
    simp [run_semantic_validation, hpaths, List.append_eq_nil]
    intro h2
    exact absurd h2 h1
  · intro f ps p hop hpar hmem hkeep
    have hf : ¬ f.isEmpty := by
      rcases f with _ | ⟨e, rest⟩
      · simp [dictGet] at hpar
      · simp
    have hb : brandsIssues d ≠ [] := by
      simp only [brandsIssues, hop, hpar, Bool.not_eq_true] at *
      simp [hf]
      refine ⟨p, ?_⟩
      simp [List.mem_filter, hmem, hkeep]
    rcases d with s | n | b | _ | fields | xs <;>
      simp only [run_semantic_validation, ne_eq, List.append_eq_nil, not_and] <;>
      simp_all [List.append_eq_nil]
  · intro f hop hf hmiss
    have hm : missingEnvIssue d rule3Target1 ≠ [] := by
      have hfe : ¬ f.isEmpty := by
        rcases f with _ | ⟨e, rest⟩
        · simp at hf
        · simp
      simp [missingEnvIssue, hop, hfe, hmiss]
    rcases d with s | n | b | _ | fields | xs <;>
      simp only [run_semantic_validation, ne_eq, List.append_eq_nil, not_and] <;>
      simp_all [List.append_eq_nil]

/-- C6 counterexample: running the semantic-paths phase on
`c6CounterDoc` leaves the missing-parameter violations in place (its
corrections aim at double-slash templates and miss), the report-only
validation collects a nonempty issue list, and the phase nevertheless
returns the document for persistence. -/
theorem semantic_paths_persists_despite_issues :
    fix_semantic_paths c6CounterDoc =
      some (c6CounterDoc, 0,
        [SIssue.missingParams "get" rule3Target1 ["environmentId", "formId"]]) ∧
    validate_paths_semantics c6CounterDoc ≠ [] :=
  ⟨by decide, by decide⟩

/-- Witness for C6 at a document with a violating DELETE operation. -/
theorem final_validation_blocks_persistence_witness :
    run_semantic_validation c6WitnessDoc ≠ [] ∧
    finalizeVerification c6WitnessDoc =
      Except.error [VIssue.deleteBody "/a"] := by
  have h := (final_validation_blocks_persistence c6WitnessDoc).1 (by decide)
  exact ⟨by decide, h.trans (congrArg Except.error (by decide))⟩

/-! ### C7: translation shape preservation -/

theorem dictSet_append_of_not_mem {l : List (String × Node)} {k : String}
    (v : Node) (h : k ∉ dictKeys l) : dictSet l k v = l ++ [(k, v)] := by
  induction l with
  | nil => simp [dictSet]
  | cons hd tl ih =>
    obtain ⟨k', v'⟩ := hd
    simp only [dictKeys, List.map_cons, List.mem_cons] at h
    push_neg at h
    simp only [dictSet, if_neg (Ne.symm h.1)]
    simp [ih (by simpa [dictKeys] using h.2)]

theorem translateFieldsAux_eq_map (T : List (String × String)) :
    ∀ (l : List (String × Node)) (acc : List (String × Node)),
      distinctKeys (l.map (fun kv => translatedKey T kv.1)) = true →
      (∀ kv ∈ l, translatedKey T kv.1 ∉ dictKeys acc) →
      translateFieldsAux T acc l =
        acc ++ l.map (fun kv =>
          (translatedKey T kv.1, translate_placeholders_recursive T kv.2)) := by
  intro l
  induction l with
  | nil => intro acc _ _; simp [translateFieldsAux]
  | cons hd tl ih =>
    intro acc hdis hdisj
    obtain ⟨k, v⟩ := hd
    simp only [List.map_cons, distinctKeys, Bool.and_eq_true,
      Bool.not_eq_true'] at hdis
    have hnk : translatedKey T k ∉ dictKeys acc := hdisj (k, v) (by simp)
    simp only [translateFieldsAux]
    have hset : dictSet acc (translatedKey T k)
        (translate_placeholders_recursive T v) =
        acc ++ [(translatedKey T k, translate_placeholders_recursive T v)] := by
      rw [dictSet_append_of_not_mem _ hnk]
    have : (lookupStr T k).getD k = translatedKey T k := rfl
    rw [this, hset, ih _ hdis.2 ?_]
    · simp
    · intro kv hkv
      simp only [dictKeys, List.map_append, List.mem_append]
      push_neg
      refine ⟨hdisj kv (by simp [hkv]), ?_⟩
      simp only [List.map_cons, List.map_nil, List.mem_singleton]
      intro he
      have : (tl.map (fun kv => translatedKey T kv.1)).contains
          (translatedKey T k) = true := by
        rw [list_contains_iff]
        exact he ▸ List.mem_map_of_mem _ hkv
      rw [hdis.1] at this
      exact Bool.false_ne_true this

mutual

theorem translate_skeleton_node (T : List (String × String)) :
    (n : Node) → noKeyClash T n = true →
      skeletonOf (translate_placeholders_recursive T n) = skeletonOf n
  | .obj kvs => fun h => by
    simp only [noKeyClash, Bool.and_eq_true] at h
    simp only [translate_placeholders_recursive, skeletonOf]
    rw [translateFieldsAux_eq_map T kvs [] h.1 (by simp [dictKeys])]
    simp only [List.nil_append]
    rw [translate_skeleton_fields T kvs h.2]
  | .arr xs => fun h => by
    simp only [noKeyClash] at h
    simp only [translate_placeholders_recursive, skeletonOf]
    rw [translate_skeleton_elems T xs h]
  | .str s => fun _ => rfl
  | .num n => fun _ => rfl
  | .bool b => fun _ => rfl
  | .null => fun _ => rfl

theorem translate_skeleton_fields (T : List (String × String)) :
    (l : List (String × Node)) → noKeyClashFields T l = true →
      skeletonFields (l.map (fun kv =>
        (translatedKey T kv.1, translate_placeholders_recursive T kv.2))) =
      skeletonFields l
  | [] => fun _ => rfl
  | (k, v) :: rest => fun h => by
    simp only [noKeyClashFields, Bool.and_eq_true] at h
    simp only [List.map_cons, skeletonFields]
    rw [translate_skeleton_node T v h.1, translate_skeleton_fields T rest h.2]

theorem translate_skeleton_elems (T : List (String × String)) :
    (l : List Node) → noKeyClashElems T l = true →
      skeletonElems (translateElems T l) = skeletonElems l
  | [] => fun _ => rfl
  | v :: rest => fun h => by
    simp only [noKeyClashElems, Bool.and_eq_true] at h
    simp only [translateElems, skeletonElems]
    rw [translate_skeleton_node T v h.1, translate_skeleton_elems T rest h.2]

end

/-- C7 (amended): provided no mapping in the document has two keys that
translate to the same key, translation preserves the structural shape —
the key count of every Mapping and the length of every Sequence (the
skeletons agree) — and a mapping is rebuilt pointwise with translated
keys; every scalar string is replaced by its dictionary entry when one
exists and left unchanged otherwise, and non-string scalars pass through
unchanged. -/
theorem translate_preserves_shape (T : List (String × String)) (doc : Node)
    (h : noKeyClash T doc = true) :
    skeletonOf (translate_placeholders_recursive T doc) = skeletonOf doc ∧
    (∀ kvs, noKeyClash T (.obj kvs) = true →
      translate_placeholders_recursive T (.obj kvs) =
        .obj (kvs.map (fun kv =>
          (translatedKey T kv.1, translate_placeholders_recursive T kv.2)))) ∧
    (∀ s t, lookupStr T s = some t →
      translate_placeholders_recursive T (.str s) = .str t) ∧
    (∀ s, lookupStr T s = none →
      translate_placeholders_recursive T (.str s) = .str s) ∧
    (∀ n, translate_placeholders_recursive T (.num n) = .num n) ∧
    (∀ b, translate_placeholders_recursive T (.bool b) = .bool b) ∧
    translate_placeholders_recursive T .null = .null := by
  refine ⟨translate_skeleton_node T doc h, ?_, ?_, ?_, fun _ => rfl, fun _ => rfl, rfl⟩
  · intro kvs hk
    simp only [noKeyClash, Bool.and_eq_true] at hk
    simp only [translate_placeholders_recursive]
    rw [translateFieldsAux_eq_map T kvs [] hk.1 (by simp [dictKeys])]
    simp
  · intro s t hst
    simp [translate_placeholders_recursive, hst]
  · intro s hs
    simp [translate_placeholders_recursive, hs]

/-- Witness for C7 at a concrete dictionary and document without key
clashes. -/
theorem translate_preserves_shape_witness :
    skeletonOf (translate_placeholders_recursive [("old", "new")]
      (.obj [("old", .arr [.str "old", .num 3]), ("other", .null)])) =
    skeletonOf (.obj [("old", .arr [.str "old", .num 3]), ("other", .null)]) :=
  (translate_preserves_shape [("old", "new")]
    (.obj [("old", .arr [.str "old", .num 3]), ("other", .null)]) (by decide)).1

/-- C7 counterexample: with the dictionary `{a : b}` the mapping
`{a : 1, b : 2}` translates to the one-key mapping `{b : 2}` — the
translated first key collides with the untranslated second and Python's
dict assignment merges them, so the key count is not preserved. -/
theorem translate_key_collision_shrinks_mapping :
    translate_placeholders_recursive [("a", "b")]
      (.obj [("a", .num 1), ("b", .num 2)]) = .obj [("b", .num 2)] ∧
    (dictKeys [("a", Node.num 1), ("b", Node.num 2)]).length = 2 ∧
    (dictKeys [("b", Node.num 2)]).length = 1 :=
  ⟨by decide, rfl, rfl⟩

/-! ### C4: idempotence of the rule engine -/

theorem get_setOperation_self {d : Node} {p m : String} {op : Node} (op' : Node)
    (h : get_operation d p m = some op) (hm : strToLower m = m) :
    get_operation (setOperation d p m op') p m = some op' := by
  rcases d with s | n | b | _ | fields | xs <;> simp [get_operation] at h
  rcases hp : dictGet fields "paths" with _ | pv
  all_goals rw [hp] at h
  · simp at h
  rcases pv with s | n | b | _ | paths | xs <;> simp at h
  rcases hq : dictGet paths p with _ | qv
  all_goals rw [hq] at h
  · simp at h
  rcases qv with s | n | b | _ | pobj | xs <;> simp at h
  simp only [setOperation, hp, hq, get_operation, dictGet_dictSet_self]
  rw [hm, dictGet_dictSet_self]

theorem setOperation_self {d : Node} {p m : String} {op : Node}
    (h : get_operation d p m = some op) (hm : strToLower m = m) :
    setOperation d p m op = d := by
  rcases d with s | n | b | _ | fields | xs <;> simp [get_operation] at h
  rcases hp : dictGet fields "paths" with _ | pv
  all_goals rw [hp] at h
  · simp at h
  rcases pv with s | n | b | _ | paths | xs <;> simp at h
  rcases hq : dictGet paths p with _ | qv
  all_goals rw [hq] at h
  · simp at h
  rcases qv with s | n | b | _ | pobj | xs <;> simp at h
  have h1 : dictSet pobj m op = pobj := by
    rw [hm] at h
    exact dictSet_self h
  simp only [setOperation, hp, hq, h1, dictSet_self hq, dictSet_self hp]

theorem get_setOperation_other {d : Node} {p q m m' : String} (X : Node)
    (hpq : p ≠ q) :
    get_operation (setOperation d q m X) p m' = get_operation d p m' := by
  rcases d with s | n | b | _ | fields | xs <;> simp [setOperation, get_operation]
  rcases hp : dictGet fields "paths" with _ | pv
  · simp [get_operation, hp]
  rcases pv with s | n | b | _ | paths | xs <;> simp [get_operation, hp]
  rcases hq : dictGet paths q with _ | qv
  · simp [get_operation, hp, hq]
  rcases qv with s | n | b | _ | pobj | xs <;>
    simp [get_operation, hp, hq, dictGet_dictSet_self,
      dictGet_dictSet_ne _ _ hpq]

theorem rule01Entry_clean {e : String × Node} {pt : String}
    {pf dof : List (String × Node)}
    (h1 : (rule01Entry e).1 = (pt, .obj pf))
    (h2 : dictGet pf "delete" = some (.obj dof)) :
    hasKey dof "requestBody" = false := by
  obtain ⟨pt0, v0⟩ := e
  rcases v0 with s | n | b | _ | pf0 | xs <;>
    simp only [rule01Entry] at h1
  case obj =>
    rcases hd : dictGet pf0 "delete" with _ | dv
    all_goals rw [hd] at h1
    · simp at h1
      obtain ⟨rfl, rfl⟩ := h1
      rw [hd] at h2; exact absurd h2 (by simp)
    rcases dv with s | n | b | _ | dof0 | xs <;> simp at h1
    case obj =>
      by_cases hrb : hasKey dof0 "requestBody"
      · rw [if_pos hrb] at h1
        simp at h1
        obtain ⟨rfl, rfl⟩ := h1
        rw [dictGet_dictSet_self] at h2
        injection h2 with h2
        injection h2 with h2
        subst h2
        simp [hasKey, dictGet_dictDel_self]
      · rw [if_neg hrb] at h1
        simp at h1
        obtain ⟨rfl, rfl⟩ := h1
        rw [hd] at h2
        injection h2 with h2
        injection h2 with h2
        subst h2
        simpa using hrb
    all_goals
      obtain ⟨rfl, rfl⟩ := h1
      rw [hd] at h2
      exact absurd h2 (by simp)
  all_goals simp at h1

theorem rule01Entry_of_clean {e : String × Node}
    (h : ∀ pf dof, e.2 = .obj pf →
      dictGet pf "delete" = some (.obj dof) →
      hasKey dof "requestBody" = false) :
    rule01Entry e = (e, 0) := by
  obtain ⟨pt, v⟩ := e
  rcases v with s | n | b | _ | pf | xs <;> simp only [rule01Entry]
  case obj =>
    rcases hd : dictGet pf "delete" with _ | dv
    · rfl
    rcases dv with s | n | b | _ | dof | xs <;> try rfl
    case obj =>
      simp [h pf dof rfl hd]

theorem rule01_establishes_clean {doc d1 : Node} {c : Nat}
    (h : rule_01_no_delete_request_body doc = some (d1, c)) :
    Rule01Clean d1 ∧ DocShapeOK d1 := by
  rcases doc with s | n | b | _ | fields | xs <;> simp [rule_01_no_delete_request_body] at h
  rcases hp : dictGet fields "paths" with _ | pv
  all_goals rw [hp] at h
  · simp at h
    obtain ⟨rfl, rfl⟩ := h
    constructor
    · intro fields' paths' pt pf dof hd hpth hmem hdel
      injection hd with hd
      subst hd
      rw [hp] at hpth
      exact absurd hpth (by simp)
    · exact ⟨fields, rfl, Or.inl hp⟩
  rcases pv with s | n | b | _ | paths | xs <;> simp at h
  obtain ⟨rfl, rfl⟩ := h
  constructor
  · intro fields' paths' pt pf dof hd hpth hmem hdel
    injection hd with hd
    subst hd
    rw [dictGet_dictSet_self] at hpth
    injection hpth with hpth
    injection hpth with hpth
    subst hpth
    simp only [List.map_map, List.mem_map] at hmem
    obtain ⟨e, _, he⟩ := hmem
    exact rule01Entry_clean he hdel
  · exact ⟨_, rfl, Or.inr ⟨_, dictGet_dictSet_self _ _ _⟩⟩

theorem map_fst_pair_zero {α : Type} (l : List α) :
    ((l.map (fun e => (e, (0 : Nat)))).map Prod.fst) = l := by
  induction l with
  | nil => rfl
  | cons hd tl ih => simpa using ih

theorem sum_map_pair_zero {α : Type} (l : List α) :
    ((l.map (fun e => (e, (0 : Nat)))).map Prod.snd).sum = 0 := by
  induction l with
  | nil => rfl
  | cons hd tl ih => simpa using ih

theorem rule01_stable {d : Node} (hs : DocShapeOK d) (hc : Rule01Clean d) :
    rule_01_no_delete_request_body d = some (d, 0) := by
  obtain ⟨fields, rfl, hshape⟩ := hs
  rcases hshape with hp | ⟨paths, hp⟩
  · simp [rule_01_no_delete_request_body, hp]
  · simp only [rule_01_no_delete_request_body, hp]
    have hent : ∀ e ∈ paths, rule01Entry e = (e, 0) := by
      intro e hmem
      refine rule01Entry_of_clean ?_
      intro pf dof hv hdel
      obtain ⟨pt, v⟩ := e
      simp only at hv
      subst hv
      exact hc fields paths pt pf dof rfl hp hmem hdel
    have h1 : paths.map rule01Entry = paths.map (fun e => (e, 0)) :=
      List.map_congr_left hent
    rw [h1, map_fst_pair_zero, sum_map_pair_zero, dictSet_self hp]

theorem strToLower_get : strToLower "get" = "get" := by decide

theorem rule01Clean_setOperation {d : Node} {q : String} (op' : Node)
    (hc : Rule01Clean d) : Rule01Clean (setOperation d q "get" op') := by
  rcases d with s | n | b | _ | fields | xs <;> simp only [setOperation] <;>
    try exact hc
  rcases hp : dictGet fields "paths" with _ | pv <;> try dsimp only
  · exact hc
  rcases pv with s | n | b | _ | paths | xs <;> try dsimp only
  all_goals try exact hc
  rcases hq : dictGet paths q with _ | qv <;> try dsimp only
  · exact hc
  rcases qv with s | n | b | _ | pobj | xs <;> try dsimp only
  all_goals try exact hc
  intro fields2 paths2 pt pf dof heq hp2 hmem hdel
  injection heq with heq
  subst heq
  rw [dictGet_dictSet_self] at hp2
  injection hp2 with hp2
  injection hp2 with hp2
  subst hp2
  rcases mem_dictSet hmem with hmem2 | hmem2
  · exact hc fields paths pt pf dof rfl hp hmem2 hdel
  · injection hmem2 with he1 he2
    subst he1
    injection he2 with he2
    subst he2
    rw [dictGet_dictSet_ne _ _ (by decide : ("delete" : String) ≠ "get")] at hdel
    exact hc fields paths pt pobj dof rfl hp (dictGet_mem hq) hdel

theorem docShapeOK_setOperation {d : Node} {q m : String} (op' : Node)
    (hs : DocShapeOK d) : DocShapeOK (setOperation d q m op') := by
  rcases d with s | n | b | _ | fields | xs <;> simp only [setOperation] <;>
    try exact hs
  rcases hp : dictGet fields "paths" with _ | pv <;> try dsimp only
  · exact hs
  rcases pv with s | n | b | _ | paths | xs <;> try dsimp only
  all_goals try exact hs
  rcases hq : dictGet paths q with _ | qv <;> try dsimp only
  · exact hs
  rcases qv with s | n | b | _ | pobj | xs <;> try dsimp only
  all_goals try exact hs
  exact ⟨_, rfl, Or.inr ⟨_, dictGet_dictSet_self _ _ _⟩⟩

theorem filter_keep_idem (ps : List Node) :
    (ps.filter keepParam).filter keepParam = ps.filter keepParam := by
  simp [List.filter_filter]

theorem rule02_establishes {d d2 : Node} {c : Nat}
    (h : rule_02_no_mismatched_path_params d = some (d2, c)) :
    Rule02Clean d2 ∧ Rule02Shape d2 := by
  unfold rule_02_no_mismatched_path_params at h
  rcases hget : get_operation d brandsPath "get" with _ | op
  all_goals rw [hget] at h
  · simp at h
    obtain ⟨rfl, rfl⟩ := h
    refine ⟨?_, Or.inl hget⟩
    intro opf ps hg hp
    rw [hget] at hg
    exact absurd hg (by simp)
  rcases op with s | n | b | _ | opf | xs <;> simp at h
  rcases hpar : dictGet opf "parameters" with _ | pv
  all_goals rw [hpar] at h
  · simp at h
    obtain ⟨rfl, rfl⟩ := h
    refine ⟨?_, Or.inr ⟨opf, hget, Or.inl hpar⟩⟩
    intro opf' ps hg hp
    rw [hget] at hg
    injection hg with hg
    injection hg with hg
    subst hg
    rw [hpar] at hp
    exact absurd hp (by simp)
  rcases pv with s | n | b | _ | kvs | ps <;> simp at h
  obtain ⟨rfl, rfl⟩ := h
  have hg2 := get_setOperation_self
    (.obj (dictSet opf "parameters" (.arr (ps.filter keepParam)))) hget strToLower_get
  refine ⟨?_, Or.inr ⟨_, hg2, Or.inr ⟨_, dictGet_dictSet_self _ _ _⟩⟩⟩
  intro opf' ps' hg hp
  rw [hg2] at hg
  injection hg with hg
  injection hg with hg
  subst hg
  rw [dictGet_dictSet_self] at hp
  injection hp with hp
  injection hp with hp
  subst hp
  exact filter_keep_idem ps

theorem rule02_stable {d : Node} (hs : Rule02Shape d) (hc : Rule02Clean d) :
    rule_02_no_mismatched_path_params d = some (d, 0) := by
  unfold rule_02_no_mismatched_path_params
  rcases hs with hget | ⟨opf, hget, hpar⟩
  · rw [hget]
  · rw [hget]
    dsimp only
    rcases hpar with hpar | ⟨ps, hpar⟩
    · rw [hpar]
    · rw [hpar]
      dsimp only
      have hfp : ps.filter keepParam = ps := hc opf ps hget hpar
      rw [hfp, dictSet_self hpar, setOperation_self hget strToLower_get]
      simp

theorem rule02_preserves_rule01 {d d2 : Node} {c : Nat}
    (h : rule_02_no_mismatched_path_params d = some (d2, c))
    (hc : Rule01Clean d) (hs : DocShapeOK d) :
    Rule01Clean d2 ∧ DocShapeOK d2 := by
  unfold rule_02_no_mismatched_path_params at h
  rcases hget : get_operation d brandsPath "get" with _ | op
  all_goals rw [hget] at h
  · simp at h; obtain ⟨rfl, rfl⟩ := h; exact ⟨hc, hs⟩
  rcases op with s | n | b | _ | opf | xs <;> simp at h
  rcases hpar : dictGet opf "parameters" with _ | pv
  all_goals rw [hpar] at h
  · simp at h; obtain ⟨rfl, rfl⟩ := h; exact ⟨hc, hs⟩
  rcases pv with s | n | b | _ | kvs | ps <;> simp at h
  obtain ⟨rfl, rfl⟩ := h
  exact ⟨rule01Clean_setOperation _ hc, docShapeOK_setOperation _ hs⟩

theorem isEnvPathParam_payload : isEnvPathParam envParamPayload = true := by decide

theorem ensure_establishes {d d2 : Node} {p : String} {c : Nat}
    (h : ensureEnvParam d p = some (d2, c)) : EnvOKAt d2 p := by
  unfold ensureEnvParam at h
  rcases hget : get_operation d p "get" with _ | op
  all_goals rw [hget] at h
  · simp at h; obtain ⟨rfl, rfl⟩ := h; exact Or.inl hget
  rcases op with s | n | b | _ | opf | xs <;> simp at h
  rcases hpar : dictGet opf "parameters" with _ | pv
  all_goals rw [hpar] at h
  · simp at h
    obtain ⟨rfl, rfl⟩ := h
    refine Or.inr ⟨_, _, get_setOperation_self _ hget strToLower_get,
      dictGet_dictSet_self _ _ _, ?_⟩
    simp [isEnvPathParam_payload]
  rcases pv with s | n | b | _ | kvs | ps <;> dsimp only at h <;>
    try exact absurd h (by simp)
  by_cases hany : ps.any isEnvPathParam
  · rw [if_pos (List.any_eq_true.mp hany)] at h
    simp at h
    obtain ⟨rfl, rfl⟩ := h
    exact Or.inr ⟨_, _, get_setOperation_self _ hget strToLower_get,
      dictGet_dictSet_self _ _ _, hany⟩
  · rw [if_neg (fun hx => hany (List.any_eq_true.mpr hx))] at h
    simp at h
    obtain ⟨rfl, rfl⟩ := h
    refine Or.inr ⟨_, _, get_setOperation_self _ hget strToLower_get,
      dictGet_dictSet_self _ _ _, ?_⟩
    simp [List.any_append, isEnvPathParam_payload]

theorem ensure_stable {d : Node} {p : String} (h : EnvOKAt d p) :
    ensureEnvParam d p = some (d, 0) := by
  unfold ensureEnvParam
  rcases h with hget | ⟨opf, ps, hget, hpar, hany⟩
  · rw [hget]
  · rw [hget]
    dsimp only
    rw [hpar]
    dsimp only
    rw [if_pos hany, dictSet_self hpar, setOperation_self hget strToLower_get]

theorem ensure_get_other {d d2 : Node} {p q m' : String} {c : Nat}
    (h : ensureEnvParam d p = some (d2, c)) (hq : q ≠ p) :
    get_operation d2 q m' = get_operation d q m' := by
  unfold ensureEnvParam at h
  rcases hget : get_operation d p "get" with _ | op
  all_goals rw [hget] at h
  · simp at h; obtain ⟨rfl, rfl⟩ := h; rfl
  rcases op with s | n | b | _ | opf | xs <;> simp at h
  rcases hpar : dictGet opf "parameters" with _ | pv
  all_goals rw [hpar] at h
  · simp at h
    obtain ⟨rfl, rfl⟩ := h
    exact get_setOperation_other _ hq
  rcases pv with s | n | b | _ | kvs | ps <;> dsimp only at h <;>
    try exact absurd h (by simp)
  by_cases hany : ps.any isEnvPathParam
  · rw [if_pos (List.any_eq_true.mp hany)] at h
    simp at h
    obtain ⟨rfl, rfl⟩ := h
    exact get_setOperation_other _ hq
  · rw [if_neg (fun hx => hany (List.any_eq_true.mpr hx))] at h
    simp at h
    obtain ⟨rfl, rfl⟩ := h
    exact get_setOperation_other _ hq

theorem ensure_preserves_rule01 {d d2 : Node} {p : String} {c : Nat}
    (h : ensureEnvParam d p = some (d2, c))
    (hc : Rule01Clean d) (hs : DocShapeOK d) :
    Rule01Clean d2 ∧ DocShapeOK d2 := by
  unfold ensureEnvParam at h
  rcases hget : get_operation d p "get" with _ | op
  all_goals rw [hget] at h
  · simp at h; obtain ⟨rfl, rfl⟩ := h; exact ⟨hc, hs⟩
  rcases op with s | n | b | _ | opf | xs <;> simp at h
  rcases hpar : dictGet opf "parameters" with _ | pv
  all_goals rw [hpar] at h
  · simp at h
    obtain ⟨rfl, rfl⟩ := h
    exact ⟨rule01Clean_setOperation _ hc, docShapeOK_setOperation _ hs⟩
  rcases pv with s | n | b | _ | kvs | ps <;> dsimp only at h <;>
    try exact absurd h (by simp)
  by_cases hany : ps.any isEnvPathParam
  · rw [if_pos (List.any_eq_true.mp hany)] at h
    simp at h
    obtain ⟨rfl, rfl⟩ := h
    exact ⟨rule01Clean_setOperation _ hc, docShapeOK_setOperation _ hs⟩
  · rw [if_neg (fun hx => hany (List.any_eq_true.mpr hx))] at h
    simp at h
    obtain ⟨rfl, rfl⟩ := h
    exact ⟨rule01Clean_setOperation _ hc, docShapeOK_setOperation _ hs⟩

theorem rule02Clean_of_get_eq {d d2 : Node}
    (hg : get_operation d2 brandsPath "get" = get_operation d brandsPath "get")
    (hc : Rule02Clean d) : Rule02Clean d2 := by
  intro opf ps hget hpar
  rw [hg] at hget
  exact hc opf ps hget hpar

theorem rule02Shape_of_get_eq {d d2 : Node}
    (hg : get_operation d2 brandsPath "get" = get_operation d brandsPath "get")
    (hs : Rule02Shape d) : Rule02Shape d2 := by
  rcases hs with hget | ⟨opf, hget, hpar⟩
  · exact Or.inl (hg.trans hget)
  · exact Or.inr ⟨opf, hg.trans hget, hpar⟩

theorem envOK_of_get_eq {d d2 : Node} {p : String}
    (hg : get_operation d2 p "get" = get_operation d p "get")
    (h : EnvOKAt d p) : EnvOKAt d2 p := by
  rcases h with hget | ⟨opf, ps, hget, hpar, hany⟩
  · exact Or.inl (hg.trans hget)
  · exact Or.inr ⟨opf, ps, hg.trans hget, hpar, hany⟩

theorem rule03_parts {d d3 : Node} {c : Nat}
    (h : rule_03_ensure_path_params_defined d = some (d3, c)) :
    ∃ dm cm cn, ensureEnvParam d rule3Target1 = some (dm, cm) ∧
      ensureEnvParam dm rule3Target2 = some (d3, cn) := by
  unfold rule_03_ensure_path_params_defined at h
  have he1 : ∃ r, ensureEnvParam d rule3Target1 = some r := by
    rcases hx : ensureEnvParam d rule3Target1 with _ | y
    · rw [hx] at h; simp at h
    · exact ⟨y, rfl⟩
  obtain ⟨⟨dm, cm⟩, he1⟩ := he1
  rw [he1] at h
  dsimp only at h
  have he2 : ∃ r, ensureEnvParam dm rule3Target2 = some r := by
    rcases hx : ensureEnvParam dm rule3Target2 with _ | y
    · rw [hx] at h; simp at h
    · exact ⟨y, rfl⟩
  obtain ⟨⟨dn, cn⟩, he2⟩ := he2
  rw [he2] at h
  dsimp only at h
  simp only [Option.some.injEq, Prod.mk.injEq] at h
  exact ⟨dm, cm, cn, he1, by rw [he2, h.1]⟩

/-- C4: applying the corrective rule list of the final verifier twice
yields the same document as applying it once, and the second application
reports zero corrections for every rule. -/
theorem rule_engine_idempotent (doc d1 : Node) (c1 c2 c3 : Nat)
    (h : applyAllRules doc = some (d1, c1, c2, c3)) :
    applyAllRules d1 = some (d1, 0, 0, 0) := by
  unfold applyAllRules at h
  rcases h1 : rule_01_no_delete_request_body doc with _ | ⟨da, ca⟩
  all_goals rw [h1] at h
  · simp at h
  dsimp only at h
  rcases h2 : rule_02_no_mismatched_path_params da with _ | ⟨db, cb⟩
  all_goals rw [h2] at h
  · simp at h
  dsimp only at h
  rcases h3 : rule_03_ensure_path_params_defined db with _ | ⟨dc, cc⟩
  all_goals rw [h3] at h
  · simp at h
  dsimp only at h
  simp only [Option.some.injEq, Prod.mk.injEq] at h
  obtain ⟨rfl, rfl, rfl, rfl⟩ := h
  obtain ⟨hc1a, hsa⟩ := rule01_establishes_clean h1
  obtain ⟨hc1b, hsb⟩ := rule02_preserves_rule01 h2 hc1a hsa
  obtain ⟨hclean2b, hshape2b⟩ := rule02_establishes h2
  obtain ⟨dm, cm, cn, he1, he2⟩ := rule03_parts h3
  obtain ⟨hc1m, hsm⟩ := ensure_preserves_rule01 he1 hc1b hsb
  obtain ⟨hc1c, hsc⟩ := ensure_preserves_rule01 he2 hc1m hsm
  have hgdm : get_operation dm brandsPath "get" =
      get_operation db brandsPath "get" :=
    ensure_get_other he1 (by decide)
  have hgdc : get_operation dc brandsPath "get" =
      get_operation db brandsPath "get" :=
    (ensure_get_other he2 (by decide)).trans hgdm
  have hclean2c : Rule02Clean dc := rule02Clean_of_get_eq hgdc hclean2b
  have hshape2c : Rule02Shape dc := rule02Shape_of_get_eq hgdc hshape2b
  have henv1c : EnvOKAt dc rule3Target1 :=
    envOK_of_get_eq (ensure_get_other he2 (by decide)) (ensure_establishes he1)
  have henv2c : EnvOKAt dc rule3Target2 := ensure_establishes he2
  have s1 := rule01_stable hsc hc1c
  have s2 := rule02_stable hshape2c hclean2c
  have s3 : rule_03_ensure_path_params_defined dc = some (dc, 0) := by
    unfold rule_03_ensure_path_params_defined
    rw [ensure_stable henv1c]
    dsimp only
    rw [ensure_stable henv2c]
  unfold applyAllRules
  rw [s1]
  dsimp only
  rw [s2]
  dsimp only
  rw [s3]

/-- Witness for C4 at a concrete document violating all three rules. -/
theorem rule_engine_idempotent_witness :
    applyAllRules
      (.obj [("paths", .obj [
        ("/a", .obj [("delete", .obj [])]),
        (brandsPath, .obj [("get", .obj [("parameters", .arr [])])]),
        (rule3Target1, .obj [("get", .obj [("parameters",
          .arr [envParamPayload])])])])]) =
      some (.obj [("paths", .obj [
        ("/a", .obj [("delete", .obj [])]),
        (brandsPath, .obj [("get", .obj [("parameters", .arr [])])]),
        (rule3Target1, .obj [("get", .obj [("parameters",
          .arr [envParamPayload])])])])], 0, 0, 0) :=
  rule_engine_idempotent
    (.obj [("paths", .obj [
      ("/a", .obj [("delete", .obj [("requestBody", .obj [])])]),
      (brandsPath, .obj [("get", .obj [("parameters",
        .arr [.obj [("name", .str "name"), ("in", .str "query")]])])]),
      (rule3Target1, .obj [("get", .obj [])])])])
    _ 1 1 1 (by decide)

/-! ### C8: idempotence of the fragment injections -/

theorem listHas_iff (l : List Node) (x : Node) :
    listHas l x = true ↔ x ∈ l := by
  simp [listHas, List.any_eq_true]

theorem mapCount_id {α : Type} {f : α → Option (α × Nat)} {l : List α}
    (h : ∀ a ∈ l, f a = some (a, 0)) : mapCount f l = some (l, 0) := by
  induction l with
  | nil => rfl
  | cons a rest ih =>
    simp only [mapCount, h a (by simp), ih (fun b hb => h b (by simp [hb]))]

theorem mapCount_same {α : Type} {f : α → Option (α × Nat)} {l : List α}
    (h : ∀ a ∈ l, ∃ n, f a = some (a, n)) :
    ∃ c, mapCount f l = some (l, c) := by
  induction l with
  | nil => exact ⟨0, rfl⟩
  | cons a rest ih =>
    obtain ⟨n, hn⟩ := h a (by simp)
    obtain ⟨c, hc⟩ := ih (fun b hb => h b (by simp [hb]))
    exact ⟨n + c, by simp only [mapCount, hn, hc]⟩

theorem mapCount_mem {α : Type} {f : α → Option (α × Nat)} :
    ∀ {l l' : List α} {c : Nat}, mapCount f l = some (l', c) →
      ∀ b ∈ l', ∃ a n, a ∈ l ∧ f a = some (b, n) := by
  intro l
  induction l with
  | nil =>
    intro l' c h b hb
    simp only [mapCount, Option.some.injEq] at h
    obtain ⟨rfl, rfl⟩ := (Prod.mk.injEq _ _ _ _).mp h.symm
    simp at hb
  | cons a rest ih =>
    intro l' c h b hb
    simp only [mapCount] at h
    rcases hf : f a with _ | ⟨b0, n0⟩
    · rw [hf] at h; simp at h
    rcases hm : mapCount f rest with _ | ⟨bs, m0⟩
    · rw [hf, hm] at h; simp at h
    rw [hf, hm] at h
    simp only [Option.some.injEq, Prod.mk.injEq] at h
    obtain ⟨h1, _⟩ := h
    subst h1
    rcases List.mem_cons.mp hb with rfl | hb2
    · exact ⟨a, n0, by simp, hf⟩
    · obtain ⟨a2, n2, ha2, hfa2⟩ := ih hm b hb2
      exact ⟨a2, n2, by simp [ha2], hfa2⟩

theorem hasKey_dictSet_of_hasKey {l : List (String × Node)} {a k : String}
    (v : Node) (h : hasKey l a = true) : hasKey (dictSet l k v) a = true := by
  by_cases hak : a = k
  · subst hak; simp [hasKey, dictGet_dictSet_self]
  · simpa [hasKey, dictGet_dictSet_ne _ _ hak] using h

theorem addMissing_preserves {errs : List (String × Node)} :
    ∀ {acc : List (String × Node)} {cnt : Nat} {code : String},
      hasKey acc code = true →
      hasKey (addMissingResponses acc cnt errs).1 code = true := by
  induction errs with
  | nil => intro acc cnt code h; simpa [addMissingResponses] using h
  | cons e rest ih =>
    intro acc cnt code h
    obtain ⟨c0, r0⟩ := e
    simp only [addMissingResponses]
    by_cases hc : hasKey acc c0
    · rw [if_pos hc]; exact ih h
    · rw [if_neg hc]; exact ih (hasKey_dictSet_of_hasKey _ h)

theorem addMissing_establish {errs : List (String × Node)} :
    ∀ {acc : List (String × Node)} {cnt : Nat} {code : String} {r : Node},
      (code, r) ∈ errs →
      hasKey (addMissingResponses acc cnt errs).1 code = true := by
  induction errs with
  | nil => intro acc cnt code r h; simp at h
  | cons e rest ih =>
    intro acc cnt code r h
    obtain ⟨c0, r0⟩ := e
    simp only [addMissingResponses]
    rcases List.mem_cons.mp h with heq | hmem
    · injection heq with he1 he2
      subst he1
      by_cases hc : hasKey acc code
      · rw [if_pos hc]; exact addMissing_preserves hc
      · rw [if_neg hc]
        exact addMissing_preserves (by simp [hasKey, dictGet_dictSet_self])
    · by_cases hc : hasKey acc c0
      · rw [if_pos hc]; exact ih hmem
      · rw [if_neg hc]; exact ih hmem

theorem addMissing_id {errs : List (String × Node)} :
    ∀ {acc : List (String × Node)} {cnt : Nat},
      (∀ code r, (code, r) ∈ errs → hasKey acc code = true) →
      addMissingResponses acc cnt errs = (acc, cnt) := by
  induction errs with
  | nil => intro acc cnt _; rfl
  | cons e rest ih =>
    intro acc cnt h
    obtain ⟨c0, r0⟩ := e
    simp only [addMissingResponses, if_pos (h c0 r0 (by simp))]
    exact ih (fun code r hm => h code r (by simp [hm]))

theorem appendRefs_preserves {names : List String} :
    ∀ {acc : List Node} {x : Node}, listHas acc x = true →
      listHas (appendMissingRefs acc names) x = true := by
  induction names with
  | nil => intro acc x h; simpa [appendMissingRefs] using h
  | cons n rest ih =>
    intro acc x h
    simp only [appendMissingRefs]
    by_cases hn : listHas acc (paramRef n)
    · rw [if_pos hn]; exact ih h
    · rw [if_neg hn]
      refine ih ?_
      rw [listHas_iff] at h ⊢
      simp [h]

theorem appendRefs_establish {names : List String} :
    ∀ {acc : List Node} {n : String}, n ∈ names →
      listHas (appendMissingRefs acc names) (paramRef n) = true := by
  induction names with
  | nil => intro acc n h; simp at h
  | cons n0 rest ih =>
    intro acc n h
    simp only [appendMissingRefs]
    rcases List.mem_cons.mp h with rfl | hmem
    · by_cases hn : listHas acc (paramRef n)
      · rw [if_pos hn]; exact appendRefs_preserves hn
      · rw [if_neg hn]
        refine appendRefs_preserves ?_
        rw [listHas_iff]
        simp
    · by_cases hn : listHas acc (paramRef n0)
      · rw [if_pos hn]; exact ih hmem
      · rw [if_neg hn]; exact ih hmem

theorem appendRefs_id {names : List String} :
    ∀ {acc : List Node},
      (∀ n ∈ names, listHas acc (paramRef n) = true) →
      appendMissingRefs acc names = acc := by
  induction names with
  | nil => intro acc _; rfl
  | cons n0 rest ih =>
    intro acc h
    simp only [appendMissingRefs, if_pos (h n0 (by simp))]
    exact ih (fun n hn => h n (by simp [hn]))

theorem setAll_get_other {l : List (String × Node)} :
    ∀ {acc : List (String × Node)} {n : String},
      n ∉ l.map Prod.fst →
      dictGet (setAllParams acc l) n = dictGet acc n := by
  induction l with
  | nil => intro acc n _; rfl
  | cons e rest ih =>
    intro acc n h
    obtain ⟨n0, v0⟩ := e
    simp only [List.map_cons, List.mem_cons] at h
    push_neg at h
    simp only [setAllParams]
    rw [ih h.2, dictGet_dictSet_ne _ _ h.1]

theorem setAll_establish {l : List (String × Node)} :
    ∀ {acc : List (String × Node)} {n : String} {v : Node},
      (l.map Prod.fst).Nodup → (n, v) ∈ l →
      dictGet (setAllParams acc l) n = some v := by
  induction l with
  | nil => intro acc n v _ h; simp at h
  | cons e rest ih =>
    intro acc n v hnd h
    obtain ⟨n0, v0⟩ := e
    simp only [List.map_cons, List.nodup_cons] at hnd
    rcases List.mem_cons.mp h with heq | hmem
    · injection heq with he1 he2
      subst he1; subst he2
      simp only [setAllParams]
      rw [setAll_get_other hnd.1, dictGet_dictSet_self]
    · simp only [setAllParams]
      exact ih hnd.2 hmem

theorem setAll_id {l : List (String × Node)} :
    ∀ {acc : List (String × Node)},
      (∀ n v, (n, v) ∈ l → dictGet acc n = some v) →
      setAllParams acc l = acc := by
  induction l with
  | nil => intro acc _; rfl
  | cons e rest ih =>
    intro acc h
    obtain ⟨n0, v0⟩ := e
    simp only [setAllParams, dictSet_self (h n0 v0 (by simp))]
    exact ih (fun n v hm => h n v (by simp [hm]))

theorem injectErrOp_out {errs : List (String × Node)} {m0 m : String}
    {v0 : Node} {opf2 : List (String × Node)} {k : Nat}
    (h : injectErrOp errs (m0, v0) = some ((m, .obj opf2), k))
    (hhttp : httpVerbs.contains (strToLower m) = true) :
    ∃ resps, dictGet opf2 "responses" = some (.obj resps) ∧
      ∀ code r, (code, r) ∈ errs → hasKey resps code = true := by
  rcases v0 with s | nn | b | _ | opf0 | xs
  · simp [injectErrOp] at h
  · simp [injectErrOp] at h
  · simp [injectErrOp] at h
  · simp [injectErrOp] at h
  · simp only [injectErrOp] at h
    by_cases hh : httpVerbs.contains (strToLower m0)
    · rw [if_pos hh] at h
      rcases hr : dictGet opf0 "responses" with _ | rv
      all_goals rw [hr] at h
      · dsimp only at h
        simp only [Option.some.injEq, Prod.mk.injEq] at h
        obtain ⟨⟨rfl, h2⟩, rfl⟩ := h
        injection h2 with h2
        subst h2
        exact ⟨_, dictGet_dictSet_self _ _ _,
          fun code r hm => addMissing_establish hm⟩
      rcases rv with s | nn | b | _ | resps0 | xs
      · simp at h
      · simp at h
      · simp at h
      · simp at h
      · dsimp only at h
        simp only [Option.some.injEq, Prod.mk.injEq] at h
        obtain ⟨⟨rfl, h2⟩, rfl⟩ := h
        injection h2 with h2
        subst h2
        exact ⟨_, dictGet_dictSet_self _ _ _,
          fun code r hm => addMissing_establish hm⟩
      · simp at h
    · rw [if_neg hh] at h
      simp only [Option.some.injEq, Prod.mk.injEq] at h
      obtain ⟨⟨rfl, h2⟩, rfl⟩ := h
      exact absurd hhttp hh
  · simp [injectErrOp] at h

theorem injectErrOp_id {errs : List (String × Node)} {m : String} {w : Node}
    (h : ∀ opf, w = .obj opf → httpVerbs.contains (strToLower m) = true →
      ∃ resps, dictGet opf "responses" = some (.obj resps) ∧
        ∀ code r, (code, r) ∈ errs → hasKey resps code = true) :
    injectErrOp errs (m, w) = some ((m, w), 0) := by
  rcases w with s | nn | b | _ | opf | xs <;> simp only [injectErrOp]
  by_cases hh : httpVerbs.contains (strToLower m)
  · rw [if_pos hh]
    obtain ⟨resps, hr, hcodes⟩ := h opf rfl hh
    rw [hr]
    dsimp only
    rw [addMissing_id (fun code r hm => hcodes code r hm)]
    rw [dictSet_self hr]
  · rw [if_neg hh]

theorem errOK_establish {eV eL : List (String × Node)} {doc d1 : Node} {c : Nat}
    (h : inject_error_responses eV eL doc = some (d1, c)) : ErrOK eV eL d1 := by
  unfold inject_error_responses at h
  rcases doc with s | nn | b | _ | fields | xs <;> simp at h
  rcases hp : dictGet fields "paths" with _ | pv
  all_goals rw [hp] at h
  · simp at h
    obtain ⟨rfl, rfl⟩ := h
    exact ⟨fields, rfl, Or.inl hp⟩
  rcases pv with s | nn | b | _ | paths | xs <;> dsimp only at h <;>
    try exact absurd h (by simp)
  rcases hmc : mapCount (injectErrPathEntry eV eL) paths with _ | ⟨paths2, c2⟩
  all_goals rw [hmc] at h
  · simp at h
  simp only [Option.some.injEq, Prod.mk.injEq] at h
  obtain ⟨rfl, rfl⟩ := h
  refine ⟨_, rfl, Or.inr ⟨paths2, dictGet_dictSet_self _ _ _, ?_⟩⟩
  intro pt pf hmem m opf hmem2 hhttp
  obtain ⟨⟨pt0, v0⟩, n0, hsrc, hf⟩ := mapCount_mem hmc _ hmem
  rcases v0 with s | nn | b | _ | pf0 | xs
  · simp [injectErrPathEntry] at hf
  · simp [injectErrPathEntry] at hf
  · simp [injectErrPathEntry] at hf
  · simp [injectErrPathEntry] at hf
  · simp only [injectErrPathEntry] at hf
    rcases hmc2 : mapCount (injectErrOp (errorResponsesFor eV eL pt0)) pf0 with _ | ⟨pf2, c3⟩
    all_goals rw [hmc2] at hf
    · simp at hf
    simp only [Option.some.injEq, Prod.mk.injEq] at hf
    obtain ⟨⟨rfl, h2⟩, rfl⟩ := hf
    injection h2 with h2
    subst h2
    obtain ⟨⟨m0, w0⟩, n1, hsrc2, hf2⟩ := mapCount_mem hmc2 _ hmem2
    obtain ⟨resps, hr, hcodes⟩ := injectErrOp_out hf2 hhttp
    exact ⟨resps, hr, hcodes⟩
  · simp [injectErrPathEntry] at hf

theorem errOK_stable {eV eL : List (String × Node)} {d : Node}
    (h : ErrOK eV eL d) : inject_error_responses eV eL d = some (d, 0) := by
  obtain ⟨fields, rfl, hrest⟩ := h
  unfold inject_error_responses
  dsimp only
  rcases hrest with hp | ⟨paths, hp, hops⟩
  · rw [hp]
  · rw [hp]
    dsimp only
    have hmc : mapCount (injectErrPathEntry eV eL) paths = some (paths, 0) := by
      refine mapCount_id ?_
      intro e hmem
      obtain ⟨pt, v⟩ := e
      rcases v with s | nn | b | _ | pf | xs <;> simp only [injectErrPathEntry]
      have hmc2 : mapCount (injectErrOp (errorResponsesFor eV eL pt)) pf =
          some (pf, 0) := by
        refine mapCount_id ?_
        intro e2 hmem2
        obtain ⟨m, w⟩ := e2
        refine injectErrOp_id ?_
        intro opf hw hhttp
        subst hw
        exact hops pt pf hmem m opf hmem2 hhttp
      rw [hmc2]
    rw [hmc]
    dsimp only
    rw [dictSet_self hp]

theorem injectParamsOp_out {names : List String} {m0 m : String}
    {v0 : Node} {opf2 : List (String × Node)} {k : Nat}
    (h : injectParamsOp names (m0, v0) = some ((m, .obj opf2), k))
    (hhttp : httpVerbs.contains (strToLower m) = true) :
    ∃ ps, dictGet opf2 "parameters" = some (.arr ps) ∧
      ∀ n ∈ names, listHas ps (paramRef n) = true := by
  rcases v0 with s | nn | b | _ | opf0 | xs
  · simp [injectParamsOp] at h
  · simp [injectParamsOp] at h
  · simp [injectParamsOp] at h
  · simp [injectParamsOp] at h
  · simp only [injectParamsOp] at h
    by_cases hh : httpVerbs.contains (strToLower m0)
    · rw [if_pos hh] at h
      rcases hp : dictGet opf0 "parameters" with _ | pv
      all_goals rw [hp] at h
      · dsimp only at h
        simp only [Option.some.injEq, Prod.mk.injEq] at h
        obtain ⟨⟨rfl, h2⟩, rfl⟩ := h
        injection h2 with h2
        subst h2
        exact ⟨_, dictGet_dictSet_self _ _ _,
          fun n hn => appendRefs_establish hn⟩
      rcases pv with s | nn | b | _ | kvs | ps0
      · simp at h
      · simp at h
      · simp at h
      · simp at h
      · simp at h
      · dsimp only at h
        simp only [Option.some.injEq, Prod.mk.injEq] at h
        obtain ⟨⟨rfl, h2⟩, rfl⟩ := h
        injection h2 with h2
        subst h2
        exact ⟨_, dictGet_dictSet_self _ _ _,
          fun n hn => appendRefs_establish hn⟩
    · rw [if_neg hh] at h
      simp only [Option.some.injEq, Prod.mk.injEq] at h
      obtain ⟨⟨rfl, h2⟩, rfl⟩ := h
      exact absurd hhttp hh
  · simp [injectParamsOp] at h

theorem injectParamsOp_resp {names : List String} {m0 m : String}
    {v0 : Node} {opf2 : List (String × Node)} {k : Nat}
    (h : injectParamsOp names (m0, v0) = some ((m, .obj opf2), k)) :
    ∃ opf0, v0 = .obj opf0 ∧ m0 = m ∧
      dictGet opf2 "responses" = dictGet opf0 "responses" := by
  rcases v0 with s | nn | b | _ | opf0 | xs
  · simp [injectParamsOp] at h
  · simp [injectParamsOp] at h
  · simp [injectParamsOp] at h
  · simp [injectParamsOp] at h
  · simp only [injectParamsOp] at h
    by_cases hh : httpVerbs.contains (strToLower m0)
    · rw [if_pos hh] at h
      rcases hp : dictGet opf0 "parameters" with _ | pv
      all_goals rw [hp] at h
      · dsimp only at h
        simp only [Option.some.injEq, Prod.mk.injEq] at h
        obtain ⟨⟨rfl, h2⟩, rfl⟩ := h
        injection h2 with h2
        subst h2
        exact ⟨opf0, rfl, rfl,
          dictGet_dictSet_ne _ _ (by decide : ("responses" : String) ≠ "parameters")⟩
      rcases pv with s | nn | b | _ | kvs | ps0
      · simp at h
      · simp at h
      · simp at h
      · simp at h
      · simp at h
      · dsimp only at h
        simp only [Option.some.injEq, Prod.mk.injEq] at h
        obtain ⟨⟨rfl, h2⟩, rfl⟩ := h
        injection h2 with h2
        subst h2
        exact ⟨opf0, rfl, rfl,
          dictGet_dictSet_ne _ _ (by decide : ("responses" : String) ≠ "parameters")⟩
    · rw [if_neg hh] at h
      simp only [Option.some.injEq, Prod.mk.injEq] at h
      obtain ⟨⟨rfl, h2⟩, rfl⟩ := h
      injection h2 with h2
      subst h2
      exact ⟨opf0, rfl, rfl, rfl⟩
  · simp [injectParamsOp] at h

theorem injectParamsOp_same {names : List String} {m : String} {w : Node}
    (h : ∀ opf, w = .obj opf → httpVerbs.contains (strToLower m) = true →
      ∃ ps, dictGet opf "parameters" = some (.arr ps) ∧
        ∀ n ∈ names, listHas ps (paramRef n) = true) :
    ∃ k, injectParamsOp names (m, w) = some ((m, w), k) := by
  rcases w with s | nn | b | _ | opf | xs <;> simp only [injectParamsOp]
  case obj =>
    by_cases hh : httpVerbs.contains (strToLower m)
    · rw [if_pos hh]
      obtain ⟨ps, hp, hrefs⟩ := h opf rfl hh
      rw [hp]
      dsimp only
      rw [appendRefs_id hrefs, dictSet_self hp]
      exact ⟨1, rfl⟩
    · rw [if_neg hh]; exact ⟨0, rfl⟩
  all_goals exact ⟨0, rfl⟩

theorem injectParamsCore_establish {gp fields cf cp : List (String × Node)}
    {d2 : Node} {c : Nat}
    (h : injectParamsCore gp fields cf cp = some (d2, c))
    (hnodup : (gp.map Prod.fst).Nodup) : ParamsOK gp d2 := by
  unfold injectParamsCore at h
  dsimp only at h
  rcases hp : dictGet (dictSet fields "components"
      (.obj (dictSet cf "parameters" (.obj (setAllParams cp gp))))) "paths"
    with _ | pv
  all_goals rw [hp] at h
  · simp only [Option.some.injEq, Prod.mk.injEq] at h
    obtain ⟨rfl, rfl⟩ := h
    refine ⟨_, rfl, ⟨_, dictGet_dictSet_self _ _ _,
      ⟨_, dictGet_dictSet_self _ _ _,
       fun n v hm => setAll_establish hnodup hm⟩⟩, Or.inl hp⟩
  rcases pv with s | nn | b | _ | paths | xs
  · simp at h
  · simp at h
  · simp at h
  · simp at h
  · dsimp only at h
    rcases hmc : mapCount (injectParamsPathEntry (gp.map Prod.fst)) paths
      with _ | ⟨paths2, c2⟩
    all_goals rw [hmc] at h
    · simp at h
    simp only [Option.some.injEq, Prod.mk.injEq] at h
    obtain ⟨rfl, rfl⟩ := h
    refine ⟨_, rfl, ⟨dictSet cf "parameters" (.obj (setAllParams cp gp)), ?_,
      setAllParams cp gp, dictGet_dictSet_self _ _ _,
      fun n v hm => setAll_establish hnodup hm⟩,
      Or.inr ⟨paths2, dictGet_dictSet_self _ _ _, ?_⟩⟩
    · rw [dictGet_dictSet_ne _ _
        (by decide : ("components" : String) ≠ "paths")]
      exact dictGet_dictSet_self _ _ _
    · intro pt pf hmem m opf hmem2 hhttp
      obtain ⟨⟨pt0, v0⟩, n0, hsrc, hf⟩ := mapCount_mem hmc _ hmem
      rcases v0 with s | nn | b | _ | pf0 | xs
      · simp [injectParamsPathEntry] at hf
      · simp [injectParamsPathEntry] at hf
      · simp [injectParamsPathEntry] at hf
      · simp [injectParamsPathEntry] at hf
      · simp only [injectParamsPathEntry] at hf
        rcases hmc2 : mapCount (injectParamsOp (gp.map Prod.fst)) pf0
          with _ | ⟨pf2, c3⟩
        all_goals rw [hmc2] at hf
        · simp at hf
        simp only [Option.some.injEq, Prod.mk.injEq] at hf
        obtain ⟨⟨rfl, h2⟩, rfl⟩ := hf
        injection h2 with h2
        subst h2
        obtain ⟨⟨m0, w0⟩, n1, hsrc2, hf2⟩ := mapCount_mem hmc2 _ hmem2
        exact injectParamsOp_out hf2 hhttp
      · simp [injectParamsPathEntry] at hf
  · simp at h

theorem paramsOK_establish {gp : List (String × Node)} {d d2 : Node} {c : Nat}
    (h : inject_global_parameters gp d = some (d2, c))
    (hnodup : (gp.map Prod.fst).Nodup) : ParamsOK gp d2 := by
  unfold inject_global_parameters at h
  rcases d with s | nn | b | _ | fields | xs <;> try simp at h
  rcases hcf : dictGet fields "components" with _ | cv
  all_goals rw [hcf] at h
  · dsimp only at h
    rcases hcp : dictGet ([] : List (String × Node)) "parameters" with _ | pv
    · rw [hcp] at h
      dsimp only at h
      exact injectParamsCore_establish h hnodup
    · simp [dictGet] at hcp
  rcases cv with s | nn | b | _ | cf | xs
  · simp at h
  · simp at h
  · simp at h
  · simp at h
  · dsimp only at h
    rcases hcp : dictGet cf "parameters" with _ | pv
    all_goals rw [hcp] at h
    · dsimp only at h
      exact injectParamsCore_establish h hnodup
    rcases pv with s | nn | b | _ | cp | xs
    · simp at h
    · simp at h
    · simp at h
    · simp at h
    · dsimp only at h
      exact injectParamsCore_establish h hnodup
    · simp at h
  · simp at h

theorem paramsOK_stable {gp : List (String × Node)} {d : Node}
    (h : ParamsOK gp d) : ∃ c, inject_global_parameters gp d = some (d, c) := by
  obtain ⟨fields, rfl, ⟨cf, hcf, cp, hcp, hvals⟩, hpaths⟩ := h
  unfold inject_global_parameters
  dsimp only
  rw [hcf]
  dsimp only
  rw [hcp]
  dsimp only
  unfold injectParamsCore
  dsimp only
  rw [setAll_id hvals, dictSet_self hcp, dictSet_self hcf]
  rcases hpaths with hp | ⟨paths, hp, hops⟩
  · rw [hp]
    exact ⟨0, rfl⟩
  · rw [hp]
    dsimp only
    have hmc : ∃ c, mapCount (injectParamsPathEntry (gp.map Prod.fst)) paths =
        some (paths, c) := by
      refine mapCount_same ?_
      intro e hmem
      obtain ⟨pt, v⟩ := e
      rcases v with s | nn | b | _ | pf | xs <;> simp only [injectParamsPathEntry]
      case obj =>
        have hmc2 : ∃ c, mapCount (injectParamsOp (gp.map Prod.fst)) pf =
            some (pf, c) := by
          refine mapCount_same ?_
          intro e2 hmem2
          obtain ⟨m, w⟩ := e2
          refine injectParamsOp_same ?_
          intro opf hw hhttp
          subst hw
          exact hops pt pf hmem m opf hmem2 hhttp
        obtain ⟨c2, hc2⟩ := hmc2
        rw [hc2]
        exact ⟨c2, rfl⟩
      all_goals exact ⟨0, rfl⟩
    obtain ⟨c2, hc2⟩ := hmc
    rw [hc2]
    dsimp only
    rw [dictSet_self hp]
    exact ⟨c2, rfl⟩

theorem errOK_core_preserved {eV eL gp fields cf cp : List (String × Node)}
    {d2 : Node} {c : Nat}
    (h : injectParamsCore gp fields cf cp = some (d2, c))
    (hE : ErrOK eV eL (.obj fields)) : ErrOK eV eL d2 := by
  obtain ⟨f0, hf0, hrest⟩ := hE
  injection hf0 with hf0
  subst hf0
  unfold injectParamsCore at h
  dsimp only at h
  rw [dictGet_dictSet_ne _ _
    (by decide : ("paths" : String) ≠ "components")] at h
  rcases hrest with hp | ⟨paths, hp, hops⟩
  · rw [hp] at h
    simp only [Option.some.injEq, Prod.mk.injEq] at h
    obtain ⟨rfl, rfl⟩ := h
    exact ⟨_, rfl, Or.inl (by
      rw [dictGet_dictSet_ne _ _
        (by decide : ("paths" : String) ≠ "components")]
      exact hp)⟩
  · rw [hp] at h
    dsimp only at h
    rcases hmc : mapCount (injectParamsPathEntry (gp.map Prod.fst)) paths
      with _ | ⟨paths2, c2⟩
    all_goals rw [hmc] at h
    · simp at h
    simp only [Option.some.injEq, Prod.mk.injEq] at h
    obtain ⟨rfl, rfl⟩ := h
    refine ⟨_, rfl, Or.inr ⟨paths2, dictGet_dictSet_self _ _ _, ?_⟩⟩
    intro pt pf hmem m opf hmem2 hhttp
    obtain ⟨⟨pt0, v0⟩, n0, hsrc, hf⟩ := mapCount_mem hmc _ hmem
    rcases v0 with s | nn | b | _ | pf0 | xs
    · simp [injectParamsPathEntry] at hf
    · simp [injectParamsPathEntry] at hf
    · simp [injectParamsPathEntry] at hf
    · simp [injectParamsPathEntry] at hf
    · simp only [injectParamsPathEntry] at hf
      rcases hmc2 : mapCount (injectParamsOp (gp.map Prod.fst)) pf0
        with _ | ⟨pf2, c3⟩
      all_goals rw [hmc2] at hf
      · simp at hf
      simp only [Option.some.injEq, Prod.mk.injEq] at hf
      obtain ⟨⟨rfl, h2⟩, rfl⟩ := hf
      injection h2 with h2
      subst h2
      obtain ⟨⟨m0, w0⟩, n1, hsrc2, hf2⟩ := mapCount_mem hmc2 _ hmem2
      obtain ⟨opf0, rfl, rfl, hresp⟩ := injectParamsOp_resp hf2
      obtain ⟨resps, hr, hcodes⟩ := hops pt0 pf0 hsrc m0 opf0 hsrc2 hhttp
      exact ⟨resps, hresp.trans hr, hcodes⟩
    · simp [injectParamsPathEntry] at hf

theorem errOK_preserved_by_params {eV eL gp : List (String × Node)}
    {d1 d2 : Node} {c : Nat}
    (h : inject_global_parameters gp d1 = some (d2, c))
    (hE : ErrOK eV eL d1) : ErrOK eV eL d2 := by
  obtain ⟨fields, rfl, hrest⟩ := hE
  unfold inject_global_parameters at h
  dsimp only at h
  rcases hcf : dictGet fields "components" with _ | cv
  all_goals rw [hcf] at h
  · dsimp only at h
    exact errOK_core_preserved h ⟨fields, rfl, hrest⟩
  rcases cv with s | nn | b | _ | cf | xs
  · simp at h
  · simp at h
  · simp at h
  · simp at h
  · dsimp only at h
    rcases hcp : dictGet cf "parameters" with _ | pv
    all_goals rw [hcp] at h
    · dsimp only at h
      exact errOK_core_preserved h ⟨fields, rfl, hrest⟩
    rcases pv with s | nn | b | _ | cp | xs
    · simp at h
    · simp at h
    · simp at h
    · simp at h
    · dsimp only at h
      exact errOK_core_preserved h ⟨fields, rfl, hrest⟩
    · simp at h
  · simp at h

/-- C8: idempotence of the fragment-injection phase. For every document and
every fragment set (default error-response tables `eV`/`eL` and global
parameter definitions `gp` with distinct names), if
`inject_error_responses` then `inject_global_parameters` both succeed,
re-running either injection on the resulting document leaves it unchanged:
the error-response pass adds a response only when its status code is absent,
so the second pass reports zero additions, and the parameter pass appends a
`$ref` only when no structurally equal element is already present in the
operation's parameters list, so the second pass returns the same document. -/
theorem fragment_injection_idempotent
    {eV eL gp : List (String × Node)} {doc d1 d2 : Node} {c1 c2 : Nat}
    (hnodup : (gp.map Prod.fst).Nodup)
    (h1 : inject_error_responses eV eL doc = some (d1, c1))
    (h2 : inject_global_parameters gp d1 = some (d2, c2)) :
    inject_error_responses eV eL d2 = some (d2, 0) ∧
    ∃ c3, inject_global_parameters gp d2 = some (d2, c3) := by
  have hE2 : ErrOK eV eL d2 := errOK_preserved_by_params h2 (errOK_establish h1)
  exact ⟨errOK_stable hE2, paramsOK_stable (paramsOK_establish h2 hnodup)⟩

theorem fragment_injection_idempotent_witness :
    inject_error_responses [("500", Node.str "e")] [("400", Node.str "f")] c8D2 =
      some (c8D2, 0) ∧
    ∃ c3, inject_global_parameters [("environmentId", Node.str "p")] c8D2 =
      some (c8D2, c3) :=
  fragment_injection_idempotent (by decide) (by decide :
      inject_error_responses [("500", Node.str "e")] [("400", Node.str "f")]
        c8Doc = some (c8D1, 1))
    (by decide :
      inject_global_parameters [("environmentId", Node.str "p")] c8D1 =
        some (c8D2, 1))

/-! ### C2: rename, rewrite, validate -/

theorem lookupStr_eq_none {l : List (String × String)} {k : String} :
    lookupStr l k = none ↔ k ∉ l.map Prod.fst := by
  induction l with
  | nil => simp [lookupStr]
  | cons e rest ih =>
    obtain ⟨a, b⟩ := e
    simp only [lookupStr, List.map_cons, List.mem_cons]
    by_cases ha : a = k
    · subst ha; simp
    · rw [if_neg ha]
      simp [ih, Ne.symm ha]

theorem lookupStr_mem {l : List (String × String)} {k n : String}
    (h : lookupStr l k = some n) : (k, n) ∈ l := by
  induction l with
  | nil => simp [lookupStr] at h
  | cons e rest ih =>
    obtain ⟨a, b⟩ := e
    simp only [lookupStr] at h
    by_cases ha : a = k
    · subst ha
      rw [if_pos rfl] at h
      simp only [Option.some.injEq] at h
      subst h
      exact List.mem_cons_self _ _
    · rw [if_neg ha] at h
      exact List.mem_cons_of_mem _ (ih h)

theorem mem_lookupStr {l : List (String × String)} {k n : String}
    (hnd : (l.map Prod.fst).Nodup) (h : (k, n) ∈ l) : lookupStr l k = some n := by
  induction l with
  | nil => simp at h
  | cons e rest ih =>
    obtain ⟨a, b⟩ := e
    simp only [List.map_cons, List.nodup_cons] at hnd
    rcases List.mem_cons.mp h with heq | hmem
    · injection heq with h1 h2
      subst h1; subst h2
      simp [lookupStr]
    · have hak : a ≠ k := by
        intro hak
        subst hak
        exact hnd.1 (List.mem_map.mpr ⟨(a, n), hmem, rfl⟩)
      simp only [lookupStr, if_neg hak]
      exact ih hnd.2 hmem

theorem selectSchemas_map_fst (normalize : String → String)
    (schemas : List (String × Node)) :
    (selectSchemasToRename normalize schemas).map Prod.fst =
      (dictKeys schemas).filter hasSpace := by
  unfold selectSchemasToRename
  induction dictKeys schemas with
  | nil => rfl
  | cons k rest ih =>
    by_cases hk : hasSpace k
    · simp [List.filterMap_cons, hk, List.filter_cons, ih]
    · simp only [Bool.not_eq_true] at hk
      simp [List.filterMap_cons, hk, List.filter_cons, ih]

theorem selectSchemas_mem {normalize : String → String}
    {schemas : List (String × Node)} {p : String × String}
    (h : p ∈ selectSchemasToRename normalize schemas) :
    hasSpace p.1 = true ∧ p.1 ∈ dictKeys schemas ∧ p.2 = normalize p.1 := by
  unfold selectSchemasToRename at h
  obtain ⟨k, hk, hg⟩ := List.mem_filterMap.mp h
  by_cases hs : hasSpace k
  · rw [if_pos hs] at hg
    simp only [Option.some.injEq] at hg
    subst hg
    exact ⟨hs, hk, rfl⟩
  · rw [if_neg hs] at hg
    simp at hg

theorem checkDup_nodup : ∀ {l : List (String × String)} {seen : List String},
    checkDupNewNames l seen = none →
    (l.map Prod.snd).Nodup ∧ ∀ n ∈ l.map Prod.snd, n ∉ seen
  | [], _ => fun _ => ⟨List.nodup_nil, by simp⟩
  | (o, n) :: rest, seen => fun h => by
    simp only [checkDupNewNames] at h
    by_cases hn : n ∈ seen
    · rw [if_pos hn] at h
      exact absurd h (by simp)
    · rw [if_neg hn] at h
      obtain ⟨hnd, hdisj⟩ := checkDup_nodup h
      refine ⟨List.nodup_cons.mpr ⟨fun hm => ?_, hnd⟩, ?_⟩
      · exact (hdisj n hm) (List.mem_cons_self n seen)
      · intro m hm
        simp only [List.map_cons, List.mem_cons] at hm
        rcases hm with rfl | hm
        · exact hn
        · intro hms
          exact (hdisj m hm) (List.mem_cons_of_mem _ hms)

theorem checkUntouched_mem :
    ∀ {untouched : List String} {l : List (String × String)},
      checkUntouchedCollision untouched l = none →
      ∀ p ∈ l, p.2 ∉ untouched
  | _, [] => fun _ p hp => absurd hp (by simp)
  | untouched, (o, n) :: rest => fun h p hp => by
    simp only [checkUntouchedCollision] at h
    by_cases hn : n ∈ untouched
    · rw [if_pos hn] at h
      exact absurd h (by simp)
    · rw [if_neg hn] at h
      rcases List.mem_cons.mp hp with rfl | hp
      · exact hn
      · exact checkUntouched_mem h p hp

theorem collectFields_cons (e : String × Node) (t : List (String × Node)) :
    collectRefFields (e :: t) = entryRefs e ++ collectRefFields t := by
  obtain ⟨k, v⟩ := e
  by_cases hk : k = "$ref"
  · subst hk
    rcases v with s | n | b | _ | kvs | xs <;> simp [collectRefFields, entryRefs]
  · simp [collectRefFields, entryRefs, hk]

theorem collectFields_append (l1 l2 : List (String × Node)) :
    collectRefFields (l1 ++ l2) = collectRefFields l1 ++ collectRefFields l2 := by
  induction l1 with
  | nil => rfl
  | cons e t ih => rw [List.cons_append, collectFields_cons, collectFields_cons,
      ih, List.append_assoc]

theorem dictDel_of_not_mem {l : List (String × Node)} {k : String}
    (h : k ∉ dictKeys l) : dictDel l k = l := by
  induction l with
  | nil => rfl
  | cons e t ih =>
    obtain ⟨a, w⟩ := e
    simp only [dictKeys, List.map_cons, List.mem_cons] at h
    push_neg at h
    have h1 : a ≠ k := fun hh => h.1 hh.symm
    simp only [dictDel, List.filter_cons]
    rw [if_pos (by simpa using h1)]
    have := ih (by simpa [dictKeys] using h.2)
    simp only [dictDel] at this
    rw [this]

theorem nodup_keys_dictDel {l : List (String × Node)} {k : String}
    (h : (dictKeys l).Nodup) : (dictKeys (dictDel l k)).Nodup := by
  have hsub : List.Sublist (dictKeys (dictDel l k)) (dictKeys l) :=
    List.Sublist.map Prod.fst (List.filter_sublist l)
  exact h.sublist hsub

theorem collectFields_dictDel_mem {l : List (String × Node)} {o : String}
    {v : Node} (hnd : (dictKeys l).Nodup) (hget : dictGet l o = some v)
    (ho : o ≠ "$ref") (r : String) :
    (r ∈ collectRefFields (dictDel l o) ∨ r ∈ collect_references_recursive v) ↔
      r ∈ collectRefFields l := by
  induction l with
  | nil => simp [dictGet] at hget
  | cons e t ih =>
    obtain ⟨a, w⟩ := e
    simp only [dictKeys, List.map_cons, List.nodup_cons] at hnd
    simp only [dictGet] at hget
    by_cases ha : a = o
    · subst ha
      rw [if_pos rfl] at hget
      simp only [Option.some.injEq] at hget
      subst hget
      simp only [dictDel, List.filter_cons]
      rw [if_neg (by simp)]
      have hdel : dictDel t a = t :=
        dictDel_of_not_mem (by simpa [dictKeys] using hnd.1)
      simp only [dictDel] at hdel
      rw [hdel, collectFields_cons]
      simp only [entryRefs, if_neg ho, List.mem_append]
      tauto
    · rw [if_neg ha] at hget
      simp only [dictDel, List.filter_cons]
      rw [if_pos (by simpa using ha)]
      have := ih hnd.2 hget
      simp only [dictDel] at this
      rw [collectFields_cons, collectFields_cons]
      simp only [List.mem_append]
      tauto

theorem collectFields_dictSet_mem {l : List (String × Node)} {k : String}
    {v v' : Node} (hget : dictGet l k = some v) (hk : k ≠ "$ref")
    (hiff : ∀ r, r ∈ collect_references_recursive v' ↔
      r ∈ collect_references_recursive v) (r : String) :
    r ∈ collectRefFields (dictSet l k v') ↔ r ∈ collectRefFields l := by
  induction l with
  | nil => simp [dictGet] at hget
  | cons e t ih =>
    obtain ⟨a, w⟩ := e
    simp only [dictGet] at hget
    by_cases ha : a = k
    · subst ha
      rw [if_pos rfl] at hget
      simp only [Option.some.injEq] at hget
      subst hget
      have hset : dictSet ((a, w) :: t) a v' = (a, v') :: t := by
        simp [dictSet]
      rw [hset, collectFields_cons, collectFields_cons]
      simp only [entryRefs, if_neg hk, List.mem_append, hiff r]
    · rw [if_neg ha] at hget
      simp only [dictSet, if_neg ha]
      rw [collectFields_cons, collectFields_cons]
      simp only [List.mem_append, ih hget]

theorem dictKeys_specRewriteFields (rm : List (String × String)) :
    ∀ (l : List (String × Node)),
      dictKeys (specRewriteFields rm l) = dictKeys l
  | [] => rfl
  | (k, v) :: rest => by
    have ih := dictKeys_specRewriteFields rm rest
    rcases v with s | n | b | _ | kvs | xs
    · by_cases h : k = "$ref" <;>
        simp [specRewriteFields, dictKeys, h] <;> simpa [dictKeys] using ih
    all_goals simp [specRewriteFields, dictKeys] <;> simpa [dictKeys] using ih

theorem dictGet_specRewriteFields (rm : List (String × String)) {k : String}
    (hk : k ≠ "$ref") :
    ∀ (l : List (String × Node)),
      dictGet (specRewriteFields rm l) k =
        (dictGet l k).map (specRewriteRefs rm)
  | [] => rfl
  | (a, v) :: rest => by
    have ih := dictGet_specRewriteFields rm hk rest
    by_cases ha : a = k
    · subst ha
      rcases v with s | n | b | _ | kvs | xs
      · simp only [specRewriteFields]
        rw [if_neg hk]
        simp [dictGet, specRewriteRefs]
      all_goals simp [specRewriteFields, dictGet, specRewriteRefs]
    · rcases v with s | n | b | _ | kvs | xs
      · by_cases hs : a = "$ref"
        · subst hs
          simp only [specRewriteFields, if_pos rfl]
          simp [dictGet, ha, ih]
        · simp only [specRewriteFields, if_neg hs]
          simp [dictGet, ha, ih]
      all_goals simp [specRewriteFields, dictGet, ha, ih]

mutual

theorem collect_specRewrite_node (rm : List (String × String)) :
    (x : Node) →
      collect_references_recursive (specRewriteRefs rm x) =
        (collect_references_recursive x).map (rewriteRefValue rm)
  | .obj kvs => by
    simp only [specRewriteRefs, collect_references_recursive]
    exact collect_specRewrite_fields rm kvs
  | .arr xs => by
    simp only [specRewriteRefs, collect_references_recursive]
    exact collect_specRewrite_elems rm xs
  | .str s => rfl
  | .num n => rfl
  | .bool b => rfl
  | .null => rfl

theorem collect_specRewrite_fields (rm : List (String × String)) :
    (l : List (String × Node)) →
      collectRefFields (specRewriteFields rm l) =
        (collectRefFields l).map (rewriteRefValue rm)
  | [] => rfl
  | (k, v) :: rest => by
    have ihr := collect_specRewrite_fields rm rest
    by_cases hk : k = "$ref"
    · subst hk
      rcases v with s | n | b | _ | kvs | xs
      · simp only [specRewriteFields, if_pos rfl]
        simp [collectRefFields, ihr]
      · simp [specRewriteFields, specRewriteRefs, collectRefFields,
          collect_references_recursive, ihr]
      · simp [specRewriteFields, specRewriteRefs, collectRefFields,
          collect_references_recursive, ihr]
      · simp [specRewriteFields, specRewriteRefs, collectRefFields,
          collect_references_recursive, ihr]
      · simp only [specRewriteFields, specRewriteRefs]
        simp [collectRefFields, collect_references_recursive,
          collect_specRewrite_fields rm kvs, ihr]
      · simp only [specRewriteFields, specRewriteRefs]
        simp [collectRefFields, collect_references_recursive,
          collect_specRewrite_elems rm xs, ihr]
    · rcases v with s | n | b | _ | kvs | xs
      · simp only [specRewriteFields, if_neg hk]
        simp [collectRefFields, hk, collect_references_recursive, ihr]
      · simp [specRewriteFields, specRewriteRefs, collectRefFields, hk,
          collect_references_recursive, ihr]
      · simp [specRewriteFields, specRewriteRefs, collectRefFields, hk,
          collect_references_recursive, ihr]
      · simp [specRewriteFields, specRewriteRefs, collectRefFields, hk,
          collect_references_recursive, ihr]
      · simp only [specRewriteFields, specRewriteRefs]
        simp [collectRefFields, hk, collect_references_recursive,
          collect_specRewrite_fields rm kvs, ihr]
      · simp only [specRewriteFields, specRewriteRefs]
        simp [collectRefFields, hk, collect_references_recursive,
          collect_specRewrite_elems rm xs, ihr]

theorem collect_specRewrite_elems (rm : List (String × String)) :
    (l : List Node) →
      collectRefElems (specRewriteElems rm l) =
        (collectRefElems l).map (rewriteRefValue rm)
  | [] => rfl
  | v :: rest => by
    simp [specRewriteElems, collectRefElems, collect_specRewrite_node rm v,
      collect_specRewrite_elems rm rest]

end

theorem isPrefixOf_append_self : ∀ (l m : List Char),
    l.isPrefixOf (l ++ m) = true
  | [], _ => by simp [List.isPrefixOf]
  | c :: t, m => by
    simp [List.isPrefixOf, isPrefixOf_append_self t m]

theorem strStartsWith_append (a b : String) :
    strStartsWith (a ++ b) a = true := by
  simp only [strStartsWith]
  have : (a ++ b).data = a.data ++ b.data := rfl
  rw [this]
  exact isPrefixOf_append_self a.data b.data

theorem applyRenames_spec :
    ∀ (toRen : List (String × String)) (acc : List (String × Node)),
      (dictKeys acc).Nodup →
      (∀ p ∈ toRen, p.1 ∈ dictKeys acc ∧ hasSpace p.1 = true ∧
        hasSpace p.2 = false ∧ p.2 ≠ "$ref" ∧ p.2 ∉ dictKeys acc) →
      (toRen.map Prod.fst).Nodup →
      (toRen.map Prod.snd).Nodup →
      ∃ acc2, applyRenames acc toRen = some acc2 ∧
        (dictKeys acc2).Nodup ∧
        (∀ k, k ∈ dictKeys acc2 ↔
          (k ∈ dictKeys acc ∧ k ∉ toRen.map Prod.fst) ∨
            k ∈ toRen.map Prod.snd) ∧
        (∀ r, r ∈ collectRefFields acc2 ↔ r ∈ collectRefFields acc)
  | [], acc => fun hnd _ _ _ =>
    ⟨acc, rfl, hnd, fun k => by simp, fun r => Iff.rfl⟩
  | (o, n) :: rest, acc => fun hnd hps holds hnews => by
    have h0 := hps (o, n) (List.mem_cons_self _ _)
    have ho_mem : o ∈ dictKeys acc := h0.1
    have ho_sp : hasSpace o = true := h0.2.1
    have hn_sp : hasSpace n = false := h0.2.2.1
    have hn_ref : n ≠ "$ref" := h0.2.2.2.1
    have hn_mem : n ∉ dictKeys acc := h0.2.2.2.2
    have ho_ref : o ≠ "$ref" := fun h => by
      rw [h] at ho_sp
      exact absurd ho_sp (by decide)
    have hno : n ≠ o := fun h => by
      rw [h, ho_sp] at hn_sp
      exact absurd hn_sp (by simp)
    obtain ⟨v, hv⟩ := Option.isSome_iff_exists.mp (dictGet_isSome_iff.mpr ho_mem)
    have hstep : dictDel (dictSet acc n v) o = dictDel acc o ++ [(n, v)] := by
      rw [dictSet_append_of_not_mem v hn_mem]
      simp only [dictDel, List.filter_append]
      congr 1
      simp [hno]
    simp only [List.map_cons, List.nodup_cons] at holds hnews
    have hnrest : n ∉ rest.map Prod.fst := fun hmem => by
      obtain ⟨p, hp, hpe⟩ := List.mem_map.mp hmem
      have hsp := (hps p (List.mem_cons_of_mem _ hp)).2.1
      rw [hpe] at hsp
      rw [hsp] at hn_sp
      exact absurd hn_sp (by simp)
    have hkapp : dictKeys (dictDel acc o ++ [(n, v)]) =
        dictKeys (dictDel acc o) ++ [n] := by
      simp [dictKeys]
    have hkacc' : ∀ k, k ∈ dictKeys (dictDel acc o ++ [(n, v)]) ↔
        (k ∈ dictKeys acc ∧ k ≠ o) ∨ k = n := by
      intro k
      rw [hkapp, List.mem_append, List.mem_singleton, mem_keys_dictDel]
    have hnd' : (dictKeys (dictDel acc o ++ [(n, v)])).Nodup := by
      rw [hkapp]
      refine List.Nodup.append (nodup_keys_dictDel hnd)
        (List.nodup_singleton n) ?_
      intro a ha hb
      rw [List.mem_singleton] at hb
      subst hb
      exact hn_mem (mem_keys_dictDel.mp ha).1
    have hps' : ∀ p ∈ rest, p.1 ∈ dictKeys (dictDel acc o ++ [(n, v)]) ∧
        hasSpace p.1 = true ∧ hasSpace p.2 = false ∧ p.2 ≠ "$ref" ∧
        p.2 ∉ dictKeys (dictDel acc o ++ [(n, v)]) := by
      intro p hp
      obtain ⟨h1, h2, h3, h4, h5⟩ := hps p (List.mem_cons_of_mem _ hp)
      have hp1o : p.1 ≠ o := fun h => holds.1 (h ▸ List.mem_map.mpr ⟨p, hp, rfl⟩)
      have hp2n : p.2 ≠ n := fun h => hnews.1 (h ▸ List.mem_map.mpr ⟨p, hp, rfl⟩)
      refine ⟨(hkacc' p.1).mpr (Or.inl ⟨h1, hp1o⟩), h2, h3, h4, fun hmem => ?_⟩
      rcases (hkacc' p.2).mp hmem with ⟨hmem2, _⟩ | heq
      · exact h5 hmem2
      · exact hp2n heq
    obtain ⟨acc2, happ, hnd2, hkeys2, hrefs2⟩ :=
      applyRenames_spec rest (dictDel acc o ++ [(n, v)]) hnd' hps'
        holds.2 hnews.2
    refine ⟨acc2, ?_, hnd2, ?_, ?_⟩
    · simp only [applyRenames, hv]
      rw [hstep]
      exact happ
    · intro k
      rw [hkeys2 k]
      simp only [List.map_cons, List.mem_cons]
      constructor
      · rintro (⟨hmem, hnotr⟩ | hmem)
        · rcases (hkacc' k).mp hmem with ⟨hma, hne⟩ | heq
          · exact Or.inl ⟨hma, fun h => h.elim hne hnotr⟩
          · exact Or.inr (Or.inl heq)
        · exact Or.inr (Or.inr hmem)
      · rintro (⟨hma, hnot⟩ | (heq | hmem))
        · exact Or.inl ⟨(hkacc' k).mpr (Or.inl ⟨hma, fun h => hnot (Or.inl h)⟩),
            fun h => hnot (Or.inr h)⟩
        · subst heq
          exact Or.inl ⟨(hkacc' k).mpr (Or.inr rfl), hnrest⟩
        · exact Or.inr hmem
    · intro r
      rw [hrefs2 r]
      rw [collectFields_append]
      have hone : collectRefFields [(n, v)] = collect_references_recursive v := by
        rw [collectFields_cons]
        simp [entryRefs, hn_ref, collectRefFields]
      rw [hone]
      rw [List.mem_append]
      exact collectFields_dictDel_mem hnd hv ho_ref r

/-- C2 (amended): the rename-rewrite-validate pipeline on a well-formed
document.  If the document has a `components.schemas` mapping with
distinct keys, the normalizer maps every selected key to a space-free
name, distinct from the literal key `$ref`, whose extraction from a full
pointer returns it intact, the collision checks pass, and the input
document has no pre-existing dangling pointer, then the pipeline
succeeds: the validate pass reports zero broken references, the pointers
of the result are exactly the pointwise rewrites of the input's pointers,
and every pointer that targeted a renamed identifier now carries the
renamed identifier's new name.  (The counterexample shows the unqualified
claim fails: a pre-existing dangling pointer makes the pipeline abort.) -/
theorem rename_rewrite_leaves_no_dangling_refs
    (normalize : String → String) (fields cf schemas : List (String × Node))
    (hcf : dictGet fields "components" = some (.obj cf))
    (hcs : dictGet cf "schemas" = some (.obj schemas))
    (hnodup : (dictKeys schemas).Nodup)
    (hnorm : ∀ p ∈ selectSchemasToRename normalize schemas,
      hasSpace p.2 = false ∧ p.2 ≠ "$ref" ∧ refTail (schemasPfx ++ p.2) = p.2)
    (hchk : check_name_collisions schemas
      (selectSchemasToRename normalize schemas) = none)
    (hclean : validate_references (.obj fields) = []) :
    ∃ d2 cnt, fix_schemas_and_references normalize (.obj fields) =
        .ok d2 (selectSchemasToRename normalize schemas) cnt ∧
      validate_references d2 = [] ∧
      (∀ r, r ∈ collect_references_recursive d2 ↔
        ∃ r0, r0 ∈ collect_references_recursive (.obj fields) ∧
          r = rewriteRefValue (selectSchemasToRename normalize schemas) r0) ∧
      (∀ r0 o n, (o, n) ∈ selectSchemasToRename normalize schemas →
        strStartsWith r0 schemasPfx = true → refTail r0 = o →
        rewriteRefValue (selectSchemasToRename normalize schemas) r0 =
          schemasPfx ++ n) := by
  have havail : availableSchemas (.obj fields) = dictKeys schemas := by
    simp [availableSchemas, getComponentsSchemas, hcf, hcs]
  have hcleanF : (collect_references_recursive (.obj fields)).filter
      (fun r => strStartsWith r schemasPfx &&
        !((availableSchemas (.obj fields)).contains (refTail r))) = [] := by
    simpa [validate_references] using hclean
  have hclean_mem : ∀ r ∈ collectRefFields fields,
      strStartsWith r schemasPfx = true → refTail r ∈ dictKeys schemas := by
    intro r hr hsw
    have hnp := List.filter_eq_nil_iff.mp hcleanF r
      (by simpa [collect_references_recursive] using hr)
    rw [havail] at hnp
    simp only [hsw, Bool.true_and, Bool.not_eq_true',
      Bool.not_eq_true] at hnp
    exact (list_contains_iff _ _).mp (by simpa using hnp)
  by_cases htR : selectSchemasToRename normalize schemas = []
  · -- nothing to rename: the pipeline is the identity
    have hren : rename_schemas_with_spaces normalize (.obj fields) =
        .ok (.obj fields) [] := by
      unfold rename_schemas_with_spaces
      dsimp only
      rw [hcf]
      dsimp only
      rw [hcs]
      dsimp only
      rw [htR]
      rfl
    refine ⟨.obj fields, 0, ?_, hclean, ?_, ?_⟩
    · rw [htR]
      simp [fix_schemas_and_references, hren, update_all_references, hclean]
    · intro r
      rw [htR]
      constructor
      · intro hr
        exact ⟨r, hr, (rewriteRefValue_nil r).symm⟩
      · rintro ⟨r0, hr0, rfl⟩
        rw [rewriteRefValue_nil]
        exact hr0
    · intro r0 o n hmem
      rw [htR] at hmem
      exact absurd hmem (by simp)
  · -- at least one schema is renamed
    have holds_nodup : ((selectSchemasToRename normalize schemas).map
        Prod.fst).Nodup := by
      rw [selectSchemas_map_fst]
      exact hnodup.filter _
    have hchk2 := hchk
    unfold check_name_collisions at hchk2
    have hdup : checkDupNewNames (selectSchemasToRename normalize schemas) [] =
        none := by
      rcases h : checkDupNewNames (selectSchemasToRename normalize schemas) []
        with _ | m
      · rfl
      · rw [h] at hchk2
        exact absurd hchk2 (by simp)
    rw [hdup] at hchk2
    dsimp only at hchk2
    have hnews_nodup : ((selectSchemasToRename normalize schemas).map
        Prod.snd).Nodup := (checkDup_nodup hdup).1
    have hps : ∀ p ∈ selectSchemasToRename normalize schemas,
        p.1 ∈ dictKeys schemas ∧ hasSpace p.1 = true ∧
        hasSpace p.2 = false ∧ p.2 ≠ "$ref" ∧ p.2 ∉ dictKeys schemas := by
      intro p hp
      obtain ⟨hsp1, hmem1, _⟩ := selectSchemas_mem hp
      obtain ⟨hsp2, href2, _⟩ := hnorm p hp
      refine ⟨hmem1, hsp1, hsp2, href2, fun hmem2 => ?_⟩
      have hnotold : p.2 ∉ (selectSchemasToRename normalize schemas).map
          Prod.fst := by
        intro ho
        obtain ⟨q, hq, hqe⟩ := List.mem_map.mp ho
        have := (selectSchemas_mem hq).1
        rw [hqe] at this
        rw [this] at hsp2
        exact absurd hsp2 (by simp)
      have huntouched := checkUntouched_mem hchk2 p hp
      refine huntouched ?_
      rw [List.mem_filter]
      refine ⟨hmem2, ?_⟩
      simp only [decide_eq_true_eq]
      intro hcontains
      exact hnotold ((list_contains_iff _ _).mp hcontains)
    obtain ⟨schemas2, happ, hnd2, hkeys2, hrefs2⟩ :=
      applyRenames_spec (selectSchemasToRename normalize schemas) schemas
        hnodup hps holds_nodup hnews_nodup
    have hne : (selectSchemasToRename normalize schemas).isEmpty = false := by
      cases hc : selectSchemasToRename normalize schemas with
      | nil => exact absurd hc htR
      | cons a t => rfl
    have hren : rename_schemas_with_spaces normalize (.obj fields) =
        .ok (.obj (dictSet fields "components"
          (.obj (dictSet cf "schemas" (.obj schemas2)))))
          (selectSchemasToRename normalize schemas) := by
      unfold rename_schemas_with_spaces
      dsimp only
      rw [hcf]
      dsimp only
      rw [hcs]
      dsimp only
      rw [if_neg (by simp [hne])]
      rw [hchk]
      dsimp only
      rw [happ]
    have hupd : update_all_references (selectSchemasToRename normalize schemas)
        (.obj (dictSet fields "components"
          (.obj (dictSet cf "schemas" (.obj schemas2))))) =
        (specRewriteRefs (selectSchemasToRename normalize schemas)
          (.obj (dictSet fields "components"
            (.obj (dictSet cf "schemas" (.obj schemas2))))),
         specCountRefs (selectSchemasToRename normalize schemas)
          (.obj (dictSet fields "components"
            (.obj (dictSet cf "schemas" (.obj schemas2)))))) := by
      rw [update_all_references, if_neg (by simp [hne])]
      exact updRef_spec _ _
    have havail2 : availableSchemas (specRewriteRefs
        (selectSchemasToRename normalize schemas)
        (.obj (dictSet fields "components"
          (.obj (dictSet cf "schemas" (.obj schemas2)))))) =
        dictKeys schemas2 := by
      simp only [specRewriteRefs, availableSchemas, getComponentsSchemas]
      rw [dictGet_specRewriteFields _ (by decide)]
      rw [dictGet_dictSet_self]
      simp only [Option.map_some', specRewriteRefs]
      rw [dictGet_specRewriteFields _ (by decide)]
      rw [dictGet_dictSet_self]
      simp only [Option.map_some', specRewriteRefs]
      rw [dictKeys_specRewriteFields]
    have hmem_f1 : ∀ r, r ∈ collectRefFields (dictSet fields "components"
        (.obj (dictSet cf "schemas" (.obj schemas2)))) ↔
        r ∈ collectRefFields fields := by
      intro r
      refine collectFields_dictSet_mem hcf (by decide) (fun r' => ?_) r
      simp only [collect_references_recursive]
      refine collectFields_dictSet_mem hcs (by decide) (fun r'' => ?_) r'
      simp only [collect_references_recursive]
      exact hrefs2 r''
    have hcollect2 : collect_references_recursive (specRewriteRefs
        (selectSchemasToRename normalize schemas)
        (.obj (dictSet fields "components"
          (.obj (dictSet cf "schemas" (.obj schemas2)))))) =
        (collectRefFields (dictSet fields "components"
          (.obj (dictSet cf "schemas" (.obj schemas2))))).map
          (rewriteRefValue (selectSchemasToRename normalize schemas)) := by
      simp only [specRewriteRefs, collect_references_recursive]
      exact collect_specRewrite_fields _ _
    have hval2 : validate_references (specRewriteRefs
        (selectSchemasToRename normalize schemas)
        (.obj (dictSet fields "components"
          (.obj (dictSet cf "schemas" (.obj schemas2)))))) = [] := by
      simp only [validate_references]
      rw [havail2, hcollect2]
      rw [List.filter_eq_nil_iff]
      intro r hr
      obtain ⟨r0, hr0, rfl⟩ := List.mem_map.mp hr
      have hr0f : r0 ∈ collectRefFields fields := (hmem_f1 r0).mp hr0
      by_cases hsw : strStartsWith r0 schemasPfx = true
      · have htail : refTail r0 ∈ dictKeys schemas := hclean_mem r0 hr0f hsw
        rcases hlu : lookupStr (selectSchemasToRename normalize schemas)
          (refTail r0) with _ | nn
        · have hfr : rewriteRefValue (selectSchemasToRename normalize schemas)
              r0 = r0 := by
            simp only [rewriteRefValue, if_pos hsw, hlu]
          rw [hfr]
          have hmem2 : refTail r0 ∈ dictKeys schemas2 :=
            (hkeys2 _).mpr (Or.inl ⟨htail, lookupStr_eq_none.mp hlu⟩)
          simp [hsw, list_contains_iff, hmem2]
        · have hfr : rewriteRefValue (selectSchemasToRename normalize schemas)
              r0 = schemasPfx ++ nn := by
            simp only [rewriteRefValue, if_pos hsw, hlu]
          rw [hfr]
          have hpair := lookupStr_mem hlu
          have hrt : refTail (schemasPfx ++ nn) = nn := (hnorm _ hpair).2.2
          have hmem2 : nn ∈ dictKeys schemas2 :=
            (hkeys2 _).mpr (Or.inr (List.mem_map.mpr ⟨_, hpair, rfl⟩))
          simp [strStartsWith_append, hrt, list_contains_iff, hmem2]
      · have hfr : rewriteRefValue (selectSchemasToRename normalize schemas)
            r0 = r0 := by
          simp only [rewriteRefValue, if_neg hsw]
        rw [hfr]
        simp only [Bool.not_eq_true] at hsw
        simp [hsw]
    refine ⟨specRewriteRefs (selectSchemasToRename normalize schemas)
        (.obj (dictSet fields "components"
          (.obj (dictSet cf "schemas" (.obj schemas2))))),
      specCountRefs (selectSchemasToRename normalize schemas)
        (.obj (dictSet fields "components"
          (.obj (dictSet cf "schemas" (.obj schemas2))))),
      ?_, hval2, ?_, ?_⟩
    · unfold fix_schemas_and_references
      rw [hren]
      dsimp only
      rw [hupd]
      dsimp only
      rw [hval2]
      rfl
    · intro r
      rw [hcollect2]
      simp only [List.mem_map, collect_references_recursive]
      constructor
      · rintro ⟨r0, hr0, rfl⟩
        exact ⟨r0, (hmem_f1 r0).mp hr0, rfl⟩
      · rintro ⟨r0, hr0, rfl⟩
        exact ⟨r0, (hmem_f1 r0).mpr hr0, rfl⟩
    · intro r0 o n hmem hsw hrt
      have hlu : lookupStr (selectSchemasToRename normalize schemas) o =
          some n := mem_lookupStr holds_nodup hmem
      simp only [rewriteRefValue, if_pos hsw, hrt, hlu]

/-- C2 counterexample: the claim does not hold for all documents.
`c2CounterDoc` has nothing to rename, yet its pre-existing pointer to the
absent schema `Missing` makes the validate pass report one dangling
reference, so the pipeline aborts instead of reporting zero. -/
theorem prior_dangling_ref_survives_pipeline :
    fix_schemas_and_references default_normalizer c2CounterDoc =
      .brokenRefs c2CounterDoc ["#/components/schemas/Missing"] := by decide

/-- Witness for C2 at the concrete document `c2Fields`: the schema
`My Schema` is renamed to `MySchema` and both pointers survive
validation. -/
theorem rename_rewrite_leaves_no_dangling_refs_witness :
    ∃ d2 cnt, fix_schemas_and_references default_normalizer (.obj c2Fields) =
        .ok d2 (selectSchemasToRename default_normalizer c2Schemas) cnt ∧
      validate_references d2 = [] ∧
      (∀ r, r ∈ collect_references_recursive d2 ↔
        ∃ r0, r0 ∈ collect_references_recursive (.obj c2Fields) ∧
          r = rewriteRefValue (selectSchemasToRename default_normalizer
            c2Schemas) r0) ∧
      (∀ r0 o n, (o, n) ∈ selectSchemasToRename default_normalizer c2Schemas →
        strStartsWith r0 schemasPfx = true → refTail r0 = o →
        rewriteRefValue (selectSchemasToRename default_normalizer c2Schemas)
          r0 = schemasPfx ++ n) :=
  rename_rewrite_leaves_no_dangling_refs default_normalizer c2Fields c2Cf
    c2Schemas (by decide) (by decide) (by decide) (by decide) (by decide)
    (by decide)
